import Mathlib

set_option maxRecDepth 10000

/-!
Verification of the BTL balanced-tree library (src/rbtree.h, src/avltree.h,
src/main.cpp) against its natural-language specification.

The C++ trees are pointer structures with parent links, mutated in place by
iterative (non-recursive) algorithms.  We embed them with an explicit heap:
a heap is an association list from addresses (Nat) to node records, a tree
state is a heap plus the root pointer plus an allocation counter.  Every
C++ statement is mirrored by a read (hget) or a write (hset) on the heap;
dereferencing a null or dangling pointer - undefined behaviour in C++ -
makes the embedded operation return none, as does fuel exhaustion of a
mirrored while loop (every loop gets fuel that is generous enough for all
well-formed inputs).  Items are Int (the repository instantiates the
templates at int).
-/

namespace BTL

/-- Colors of red-black nodes, mirroring enum RBColor in src/rbtree.h. -/
inductive RBColor where
  | red
  | black
deriving DecidableEq, Repr

/-- One tree node.  The payload beta is the balancing metadata: RBColor for
RBTree nodes, Int (the C++ int balanceFactor) for AVLTree nodes.  The three
pointers left, right, parent are optional heap addresses (none is nullptr). -/
structure BNode (beta : Type) where
  item : Int
  info : beta
  left : Option Nat := none
  right : Option Nat := none
  parent : Option Nat := none
deriving DecidableEq, Repr

/-- A heap is an association list from addresses to live nodes. -/
abbrev Heap (beta : Type) := List (Nat × BNode beta)

/-- Read the node at address a (none = dangling pointer, i.e. freed). -/
def hget (h : Heap beta) (a : Nat) : Option (BNode beta) :=
  (h.find? (fun p => p.1 == a)).map Prod.snd

/-- Overwrite the node stored at address a (no effect if a is not live). -/
def hset (h : Heap beta) (a : Nat) (n : BNode beta) : Heap beta :=
  h.map (fun p => if p.1 == a then (a, n) else p)

/-- Free the node at address a, mirroring delete. -/
def hdel (h : Heap beta) (a : Nat) : Heap beta :=
  h.filter (fun p => p.1 != a)

/-- Read the left pointer of the node at a (outer none = UB: a not live). -/
def getL (h : Heap beta) (a : Nat) : Option (Option Nat) :=
  (hget h a).map BNode.left

/-- Read the right pointer of the node at a. -/
def getR (h : Heap beta) (a : Nat) : Option (Option Nat) :=
  (hget h a).map BNode.right

/-- Read the parent pointer of the node at a. -/
def getP (h : Heap beta) (a : Nat) : Option (Option Nat) :=
  (hget h a).map BNode.parent

/-- Read the item of the node at a. -/
def getItem (h : Heap beta) (a : Nat) : Option Int :=
  (hget h a).map BNode.item

/-- Read the balancing metadata of the node at a. -/
def getInfo (h : Heap beta) (a : Nat) : Option beta :=
  (hget h a).map BNode.info

/-- Write the left pointer of the node at a (UB if a is not live). -/
def setL (h : Heap beta) (a : Nat) (v : Option Nat) : Option (Heap beta) :=
  (hget h a).map fun n => hset h a { n with left := v }

/-- Write the right pointer of the node at a. -/
def setR (h : Heap beta) (a : Nat) (v : Option Nat) : Option (Heap beta) :=
  (hget h a).map fun n => hset h a { n with right := v }

/-- Write the parent pointer of the node at a. -/
def setP (h : Heap beta) (a : Nat) (v : Option Nat) : Option (Heap beta) :=
  (hget h a).map fun n => hset h a { n with parent := v }

/-- Write the balancing metadata of the node at a. -/
def setInfo (h : Heap beta) (a : Nat) (v : beta) : Option (Heap beta) :=
  (hget h a).map fun n => hset h a { n with info := v }

/-!
Shared iterator machinery.  The inorder iterator (ConstIterator) and the
postorder iterator (ConstPostorder::Iterator) are textually identical in
src/rbtree.h and src/avltree.h, so they are embedded once, generically in
the node payload.
-/

/-- Mirrors the descend-leftward loops: while (x->left != nullptr) x = x->left. -/
def descLeft (h : Heap beta) : Nat → Nat → Option Nat
  | _, 0 => none
  | a, fuel+1 => do
    let n ← hget h a
    match n.left with
    | some l => descLeft h l fuel
    | none => some a

/-- Mirrors the climb in ConstIterator::operator++ (src/rbtree.h lines
681-686, src/avltree.h lines 918-923): while (current->parent != nullptr
and current->parent->right == current) current = current->parent; then
current = current->parent.  Returns the new current pointer. -/
def climbLeft (h : Heap beta) : Nat → Nat → Option (Option Nat)
  | _, 0 => none
  | a, fuel+1 => do
    let n ← hget h a
    match n.parent with
    | none => some none
    | some p => do
      let pn ← hget h p
      if pn.right == some a then climbLeft h p fuel
      else some (some p)

/-- Mirrors ConstIterator::operator++ (src/rbtree.h lines 672-690): the
inorder successor of the node at a. -/
def inorderSucc (h : Heap beta) (a : Nat) (fuel : Nat) : Option (Option Nat) := do
  let n ← hget h a
  match n.right with
  | some r => (descLeft h r fuel).map some
  | none => climbLeft h a fuel

/-- Mirrors the begin() construction (ConstIterator(root)): if the root is
null the iterator is end(); else descend leftward as far as possible. -/
def beginPtr (h : Heap beta) (root : Option Nat) : Option (Option Nat) :=
  match root with
  | none => some none
  | some r => (descLeft h r (h.length + 1)).map some

/-- Items yielded by running the inorder iterator from the cursor cur until
it equals end() (current == nullptr). -/
def inorderFrom (h : Heap beta) : Option Nat → Nat → Option (List Int)
  | none, _ => some []
  | some _, 0 => none
  | some a, fuel+1 => do
    let n ← hget h a
    let nxt ← inorderSucc h a (h.length + 1)
    let rest ← inorderFrom h nxt fuel
    pure (n.item :: rest)

/-- Full inorder iteration from begin() to end(). -/
def inorderSeq (h : Heap beta) (root : Option Nat) : Option (List Int) := do
  let b ← beginPtr h root
  inorderFrom h b (h.length + 1)

/-- State of the postorder iterator (ConstPostorder::Iterator): the cached
current node, the pre-fetched next node, and the phase flag. -/
structure PoIter where
  current : Option Nat := none
  next : Option Nat := none
  downwardPhase : Bool := true
deriving DecidableEq, Repr

/-- The end() postorder iterator: Iterator() / Iterator(nullptr). -/
def poEndIter : PoIter := {}

/-- Mirrors the while loop of ConstPostorder::Iterator::operator++
(src/rbtree.h lines 768-799).  Only st.next and st.downwardPhase are read;
st.current is written.  The advance never dereferences st.current. -/
def poAdvanceLoop (h : Heap beta) : PoIter → Nat → Option PoIter
  | _, 0 => none
  | st, fuel+1 =>
    match st.next with
    | none => some st
    | some nx => do
      let n ← hget h nx
      if st.downwardPhase then
        match n.right with
        | some r => do
          let lm ← descLeft h r (h.length + 1)
          poAdvanceLoop h { st with next := some lm } fuel
        | none => poAdvanceLoop h { st with downwardPhase := false } fuel
      else do
        let newPhase ←
          match n.parent with
          | some p => do
            let pn ← hget h p
            pure (if pn.right == some nx then false else true)
          | none => pure true
        pure { current := some nx, next := n.parent, downwardPhase := newPhase }

/-- Mirrors ConstPostorder::Iterator::operator++ in full (lines 762-801):
if next is null, current becomes null; otherwise run the loop. -/
def poAdvance (h : Heap beta) (st : PoIter) (fuel : Nat) : Option PoIter :=
  match st.next with
  | none => some { st with current := none }
  | some _ => poAdvanceLoop h st fuel

/-- Mirrors ConstPostorder::begin(), i.e. Iterator(root) (lines 748-759):
start with next = root, descend leftward, then advance once. -/
def poBegin (h : Heap beta) (root : Option Nat) (fuel : Nat) : Option PoIter :=
  match root with
  | none => some { current := none, next := none, downwardPhase := true }
  | some r => do
    let lm ← descLeft h r (h.length + 1)
    poAdvance h { current := none, next := some lm, downwardPhase := true } fuel

/-- Items yielded by the loop for (itr = begin; itr != end; ++itr): note the
item of the current node is read, so a null current (with the iterator not
equal to end) would be UB. -/
def poSeqFrom (h : Heap beta) : PoIter → Nat → Option (List Int)
  | _, 0 => none
  | st, fuel+1 =>
    if st == poEndIter then some [] else do
      let a ← st.current
      let n ← hget h a
      let st2 ← poAdvance h st (h.length + 1)
      let rest ← poSeqFrom h st2 fuel
      pure (n.item :: rest)

/-- Full postorder iteration of a tree given by its root. -/
def poSeq (h : Heap beta) (root : Option Nat) : Option (List Int) := do
  let st ← poBegin h root (h.length + 1)
  poSeqFrom h st (h.length + 1)

/-- Mirrors Search (src/rbtree.h lines 180-195, src/avltree.h lines
778-793), identical in both trees. -/
def searchLoop (h : Heap beta) (item : Int) : Option Nat → Nat → Option Bool
  | none, _ => some false
  | some _, 0 => none
  | some a, fuel+1 => do
    let n ← hget h a
    if n.item == item then some true
    else if item < n.item then searchLoop h item n.left fuel
    else searchLoop h item n.right fuel

/-!
Red-black tree (src/rbtree.h).
-/

/-- State of one tree object: the heap of its nodes, the root pointer, and
the next fresh address used by new.  The payload beta is RBColor for an
RBTree and Int for an AVLTree. -/
structure TState (beta : Type) where
  heap : Heap beta
  root : Option Nat := none
  nextAddr : Nat := 0
deriving DecidableEq, Repr

/-- State of one RBTree object. -/
abbrev RBState := TState RBColor

/-- State of one AVLTree object. -/
abbrev AVLState := TState Int

/-- The freshly constructed RBTree(): root = nullptr. -/
def rbEmpty : RBState := { heap := [] }

/-- The freshly constructed AVLTree(): root = nullptr. -/
def avlEmpty : AVLState := { heap := [] }

/-- Mirrors RBTree::Search (lines 180-195). -/
def rbSearch (s : RBState) (item : Int) : Option Bool :=
  searchLoop s.heap item s.root (s.heap.length + 1)

/-- Mirrors RBTree::LeftRotate (lines 507-529).  x must have a right child
(dereferenced unconditionally by y->left). -/
def rbLeftRotate (s : RBState) (x : Nat) : Option RBState := do
  let y ← (← getR s.heap x)
  let yl ← getL s.heap y
  let h ← setR s.heap x yl
  let h ← match yl with
    | some c => setP h c (some x)
    | none => pure h
  let xp ← getP h x
  let h ← setP h y xp
  let (h, root) ← (do
    match xp with
    | none => pure (h, some y)
    | some p => do
      let pl ← getL h p
      if pl == some x then do
        let h ← setL h p (some y)
        pure (h, s.root)
      else do
        let h ← setR h p (some y)
        pure (h, s.root) : Option (Heap RBColor × Option Nat))
  let h ← setL h y (some x)
  let h ← setP h x (some y)
  pure { s with heap := h, root := root }

/-- Mirrors RBTree::RightRotate (lines 537-559). -/
def rbRightRotate (s : RBState) (x : Nat) : Option RBState := do
  let y ← (← getL s.heap x)
  let yr ← getR s.heap y
  let h ← setL s.heap x yr
  let h ← match yr with
    | some c => setP h c (some x)
    | none => pure h
  let xp ← getP h x
  let h ← setP h y xp
  let (h, root) ← (do
    match xp with
    | none => pure (h, some y)
    | some p => do
      let pr ← getR h p
      if pr == some x then do
        let h ← setR h p (some y)
        pure (h, s.root)
      else do
        let h ← setL h p (some y)
        pure (h, s.root) : Option (Heap RBColor × Option Nat))
  let h ← setR h y (some x)
  let h ← setP h x (some y)
  pure { s with heap := h, root := root }

/-- Metadata update lifted to the tree state. -/
def stSetInfo (s : TState beta) (a : Nat) (c : beta) : Option (TState beta) :=
  (setInfo s.heap a c).map fun h => { s with heap := h }

/-- Whether the node pointed to (possibly null, counting as black) is red. -/
def rbColorRed (h : Heap RBColor) (a : Option Nat) : Option Bool :=
  match a with
  | some ya => (hget h ya).map fun yn => yn.info == RBColor.red
  | none => some false

/-- The recoloring of InsertFixup when the uncle y is red (lines 367-369
and 389-391): parent black, uncle black, grandparent red. -/
def rbUncleRedRecolor (s : RBState) (zp zpp : Nat) (y : Option Nat) : Option RBState := do
  let s ← stSetInfo s zp RBColor.black
  let s ← match y with
    | some ya => stSetInfo s ya RBColor.black
    | none => pure s
  stSetInfo s zpp RBColor.red

/-- The parent-on-the-left branch of the InsertFixup body (lines 362-383). -/
def rbInsFixLeft (s : RBState) (z zp zpp : Nat) : Option (RBState × Nat) := do
  let y ← getR s.heap zpp
  let yIsRed ← rbColorRed s.heap y
  if yIsRed then do
    let s ← rbUncleRedRecolor s zp zpp y
    pure (s, zpp)
  else do
    let zpr ← getR s.heap zp
    let sz ← if zpr == some z then (rbLeftRotate s zp).map (fun s2 => (s2, zp))
             else pure (s, z)
    let s := sz.1
    let z := sz.2
    let zp2 ← (← getP s.heap z)
    let s ← stSetInfo s zp2 RBColor.black
    let zpp2 ← (← getP s.heap zp2)
    let s ← stSetInfo s zpp2 RBColor.red
    let s2 ← rbRightRotate s zpp2
    pure (s2, z)

/-- The parent-on-the-right branch of the InsertFixup body (lines 384-405). -/
def rbInsFixRight (s : RBState) (z zp zpp : Nat) : Option (RBState × Nat) := do
  let y ← getL s.heap zpp
  let yIsRed ← rbColorRed s.heap y
  if yIsRed then do
    let s ← rbUncleRedRecolor s zp zpp y
    pure (s, zpp)
  else do
    let zpl ← getL s.heap zp
    let sz ← if zpl == some z then (rbRightRotate s zp).map (fun s2 => (s2, zp))
             else pure (s, z)
    let s := sz.1
    let z := sz.2
    let zp2 ← (← getP s.heap z)
    let s ← stSetInfo s zp2 RBColor.black
    let zpp2 ← (← getP s.heap zp2)
    let s ← stSetInfo s zpp2 RBColor.red
    let s2 ← rbLeftRotate s zpp2
    pure (s2, z)

/-- One evaluation of the while condition and (if it holds) body of
RBTree::InsertFixup (lines 356-406).  Returns (true, s, z) when the loop
should run again, (false, s, z) when the condition failed. -/
def rbInsertFixupStep (s : RBState) (z : Nat) : Option (Bool × RBState × Nat) := do
  if s.root == some z then pure (false, s, z)
  else do
    let zp ← (← getP s.heap z)
    let zpn ← hget s.heap zp
    if zpn.info == RBColor.red then do
      let zpp ← zpn.parent
      let zppL ← getL s.heap zpp
      let sz ← if some zp == zppL then rbInsFixLeft s z zp zpp
               else rbInsFixRight s z zp zpp
      pure (true, sz.1, sz.2)
    else pure (false, s, z)

/-- The while loop of RBTree::InsertFixup, iterated with fuel. -/
def rbInsertFixupLoop (s : RBState) (z : Nat) : Nat → Option (RBState × Nat)
  | 0 => none
  | fuel+1 => do
    let (again, s, z) ← rbInsertFixupStep s z
    if again then rbInsertFixupLoop s z fuel else pure (s, z)

/-- Mirrors RBTree::InsertFixup (lines 353-408): run the loop, then force
the root black. -/
def rbInsertFixup (s : RBState) (z : Nat) : Option RBState := do
  let (s, _) ← rbInsertFixupLoop s z (s.heap.length + 1)
  let r ← s.root
  let h ← setInfo s.heap r RBColor.black
  pure { s with heap := h }

/-- Result of the descent loop of RBTree::Insert (lines 204-217). -/
inductive RBDescend where
  | dup
  | place (previous : Option Nat)
deriving DecidableEq, Repr

/-- The descent loop of RBTree::Insert: walk down comparing, remembering
the previous node; stop on an equal item (dup) or on falling off. -/
def rbInsertDescend (h : Heap RBColor) (item : Int) :
    Option Nat → Option Nat → Nat → Option RBDescend
  | none, previous, _ => some (.place previous)
  | some _, _, 0 => none
  | some c, _, fuel+1 => do
    let n ← hget h c
    if item < n.item then rbInsertDescend h item n.left (some c) fuel
    else if item > n.item then rbInsertDescend h item n.right (some c) fuel
    else some .dup

/-- Mirrors RBTree::Insert (lines 198-228): allocate a red node, descend,
discard the node on a duplicate, otherwise link it and run InsertFixup. -/
def rbInsert (s : RBState) (item : Int) : Option RBState := do
  let a := s.nextAddr
  let h0 : Heap RBColor := (a, { item := item, info := RBColor.red }) :: s.heap
  let s : RBState := { heap := h0, root := s.root, nextAddr := a + 1 }
  let res ← rbInsertDescend s.heap item s.root none (s.heap.length + 1)
  match res with
  | .dup => pure { s with heap := hdel s.heap a }
  | .place previous => do
    let h ← setP s.heap a previous
    match previous with
    | none => rbInsertFixup { s with heap := h, root := some a } a
    | some prev => do
      let pn ← hget h prev
      let h ← if item < pn.item then setL h prev (some a) else setR h prev (some a)
      rbInsertFixup { s with heap := h } a

/-- The find loop shared by RBTree::Remove (lines 237-246): stop when an
equal item is found, descending by comparison otherwise. -/
def rbFind (h : Heap RBColor) (item : Int) : Option Nat → Nat → Option (Option Nat)
  | none, _ => some none
  | some _, 0 => none
  | some c, fuel+1 => do
    let n ← hget h c
    if n.item == item then some (some c)
    else if item < n.item then rbFind h item n.left fuel
    else rbFind h item n.right fuel

/-- Whether the node pointed to is black or absent (null counts black),
as in the case-2/3 tests of RemoveFixup. -/
def rbColorBlackOrNull (h : Heap RBColor) (a : Option Nat) : Option Bool :=
  match a with
  | some ya => (hget h ya).map fun yn => yn.info == RBColor.black
  | none => some true

/-- Case 1 of RemoveFixup, x-on-the-left side (lines 419-426): red sibling
turns black, parent red, left-rotate the parent, re-read the sibling. -/
def rbRemFixLCase1 (s : RBState) (x xp y : Nat) : Option (RBState × Nat) := do
  let yn ← hget s.heap y
  if yn.info == RBColor.red then do
    let s ← stSetInfo s y RBColor.black
    let s ← stSetInfo s xp RBColor.red
    let s ← rbLeftRotate s xp
    let xp2 ← (← getP s.heap x)
    let y2 ← (← getR s.heap xp2)
    pure (s, y2)
  else pure (s, y)

/-- Case 3 of RemoveFixup, x-on-the-left side (lines 437-445): run only
when the far nephew is black or absent. -/
def rbRemFixLCase3 (s : RBState) (x y : Nat) : Option (RBState × Nat) := do
  let yn ← hget s.heap y
  let s ← match yn.left with
    | some l => stSetInfo s l RBColor.black
    | none => pure s
  let s ← stSetInfo s y RBColor.red
  let s2 ← rbRightRotate s y
  let xp3 ← (← getP s2.heap x)
  let y2 ← (← getR s2.heap xp3)
  pure (s2, y2)

/-- Recoloring half of case 4 of RemoveFixup, x-on-the-left side (lines
448-451): sibling takes the parent's color, grandparent (if any) and far
nephew become black. -/
def rbRemFixLCase4A (s : RBState) (x y : Nat) : Option RBState := do
  let xp4 ← (← getP s.heap x)
  let xpc ← getInfo s.heap xp4
  let s ← stSetInfo s y xpc
  let xp5 ← (← getP s.heap x)
  let xpp ← getP s.heap xp5
  let s ← match xpp with
    | some g => stSetInfo s g RBColor.black
    | none => pure s
  let yr ← (← getR s.heap y)
  stSetInfo s yr RBColor.black

/-- Case 4 of RemoveFixup, x-on-the-left side (lines 447-453), including
the root = x assignment that ends it. -/
def rbRemFixLCase4 (s : RBState) (x y : Nat) : Option (RBState × Nat) := do
  let s ← rbRemFixLCase4A s x y
  let xp6 ← (← getP s.heap x)
  let s2 ← rbLeftRotate s xp6
  pure ({ s2 with root := some x }, x)

/-- Cases 3 and 4 of RemoveFixup, x-on-the-left side (lines 437-453). -/
def rbRemFixLCase34 (s : RBState) (x y : Nat) (yrBlack : Bool) : Option (RBState × Nat) := do
  let sy ← if yrBlack then rbRemFixLCase3 s x y else pure (s, y)
  rbRemFixLCase4 sy.1 x sy.2

/-- The x-on-the-left body of RemoveFixup (lines 416-455). -/
def rbRemFixLeft (s : RBState) (x xp : Nat) : Option (RBState × Nat) := do
  let y0 ← (← getR s.heap xp)
  let sy ← rbRemFixLCase1 s x xp y0
  let s := sy.1
  let y := sy.2
  let yn ← hget s.heap y
  let ylBlack ← rbColorBlackOrNull s.heap yn.left
  let yrBlack ← rbColorBlackOrNull s.heap yn.right
  if ylBlack && yrBlack then do
    let s ← stSetInfo s y RBColor.red
    let x2 ← (← getP s.heap x)
    pure (s, x2)
  else rbRemFixLCase34 s x y yrBlack

/-- Case 1 of RemoveFixup, x-on-the-right side (lines 460-467). -/
def rbRemFixRCase1 (s : RBState) (x xp y : Nat) : Option (RBState × Nat) := do
  let yn ← hget s.heap y
  if yn.info == RBColor.red then do
    let s ← stSetInfo s y RBColor.black
    let s ← stSetInfo s xp RBColor.red
    let s ← rbRightRotate s xp
    let xp2 ← (← getP s.heap x)
    let y2 ← (← getL s.heap xp2)
    pure (s, y2)
  else pure (s, y)

/-- Case 3 of RemoveFixup, x-on-the-right side (lines 478-486). -/
def rbRemFixRCase3 (s : RBState) (x y : Nat) : Option (RBState × Nat) := do
  let yn ← hget s.heap y
  let s ← match yn.right with
    | some r => stSetInfo s r RBColor.black
    | none => pure s
  let s ← stSetInfo s y RBColor.red
  let s2 ← rbLeftRotate s y
  let xp3 ← (← getP s2.heap x)
  let y2 ← (← getL s2.heap xp3)
  pure (s2, y2)

/-- Recoloring half of case 4 of RemoveFixup, x-on-the-right side (lines
489-492). -/
def rbRemFixRCase4A (s : RBState) (x y : Nat) : Option RBState := do
  let xp4 ← (← getP s.heap x)
  let xpc ← getInfo s.heap xp4
  let s ← stSetInfo s y xpc
  let xp5 ← (← getP s.heap x)
  let xpp ← getP s.heap xp5
  let s ← match xpp with
    | some g => stSetInfo s g RBColor.black
    | none => pure s
  let yl ← (← getL s.heap y)
  stSetInfo s yl RBColor.black

/-- Case 4 of RemoveFixup, x-on-the-right side (lines 488-494). -/
def rbRemFixRCase4 (s : RBState) (x y : Nat) : Option (RBState × Nat) := do
  let s ← rbRemFixRCase4A s x y
  let xp6 ← (← getP s.heap x)
  let s2 ← rbRightRotate s xp6
  pure ({ s2 with root := some x }, x)

/-- Cases 3 and 4 of RemoveFixup, x-on-the-right side (lines 478-494). -/
def rbRemFixRCase34 (s : RBState) (x y : Nat) (ylBlack : Bool) : Option (RBState × Nat) := do
  let sy ← if ylBlack then rbRemFixRCase3 s x y else pure (s, y)
  rbRemFixRCase4 sy.1 x sy.2

/-- The x-on-the-right body of RemoveFixup (lines 456-496). -/
def rbRemFixRight (s : RBState) (x xp : Nat) : Option (RBState × Nat) := do
  let y0 ← (← getL s.heap xp)
  let sy ← rbRemFixRCase1 s x xp y0
  let s := sy.1
  let y := sy.2
  let yn ← hget s.heap y
  let yrBlack ← rbColorBlackOrNull s.heap yn.right
  let ylBlack ← rbColorBlackOrNull s.heap yn.left
  if yrBlack && ylBlack then do
    let s ← stSetInfo s y RBColor.red
    let x2 ← (← getP s.heap x)
    pure (s, x2)
  else rbRemFixRCase34 s x y ylBlack

/-- One evaluation of the while condition and body of RBTree::RemoveFixup
(lines 414-497). -/
def rbRemoveFixupStep (s : RBState) (x : Nat) : Option (Bool × RBState × Nat) := do
  if s.root == some x then pure (false, s, x)
  else do
    let xn ← hget s.heap x
    if xn.info == RBColor.black then do
      let xp ← xn.parent
      let xpl ← getL s.heap xp
      let sx ← if xpl == some x then rbRemFixLeft s x xp else rbRemFixRight s x xp
      pure (true, sx.1, sx.2)
    else pure (false, s, x)

/-- The while loop of RBTree::RemoveFixup, iterated with fuel. -/
def rbRemoveFixupLoop (s : RBState) (x : Nat) : Nat → Option (RBState × Nat)
  | 0 => none
  | fuel+1 => do
    let (again, s, x) ← rbRemoveFixupStep s x
    if again then rbRemoveFixupLoop s x fuel else pure (s, x)

/-- Mirrors RBTree::RemoveFixup (lines 411-499): run the loop, then force
x black. -/
def rbRemoveFixup (s : RBState) (x : Nat) : Option RBState := do
  let (s, x) ← rbRemoveFixupLoop s x ((s.heap.length + 2) * 2)
  let h ← setInfo s.heap x RBColor.black
  pure { s with heap := h }

/-- Pointer updates lifted to the tree state. -/
def stSetL (s : TState beta) (a : Nat) (v : Option Nat) : Option (TState beta) :=
  (setL s.heap a v).map fun h => { s with heap := h }

/-- Pointer updates lifted to the tree state. -/
def stSetR (s : TState beta) (a : Nat) (v : Option Nat) : Option (TState beta) :=
  (setR s.heap a v).map fun h => { s with heap := h }

/-- Pointer updates lifted to the tree state. -/
def stSetP (s : TState beta) (a : Nat) (v : Option Nat) : Option (TState beta) :=
  (setP s.heap a v).map fun h => { s with heap := h }

/-- The 0-children case of RBTree::Remove (lines 250-263): unlink the leaf
from its parent; balancePoint is left at nullptr. -/
def rbUnlinkLeaf (s : RBState) (cur : Nat) (p0 : Option Nat) : Option (RBState × Option Nat) := do
  if s.root == some cur then pure ({ s with root := none }, none)
  else do
    let p ← p0
    let pl ← getL s.heap p
    if pl == some cur then do
      let s ← stSetL s p none
      pure (s, none)
    else do
      let s ← stSetR s p none
      pure (s, none)

/-- The 1-child cases of RBTree::Remove (lines 264-307): splice the single
child c into the place of cur; balancePoint is the child. -/
def rbUnlinkOneChild (s : RBState) (cur c : Nat) (p0 : Option Nat) : Option (RBState × Option Nat) := do
  if s.root == some cur then do
    let s ← stSetP s c none
    pure ({ s with root := some c }, some c)
  else do
    let p ← p0
    let pl ← getL s.heap p
    if pl == some cur then do
      let s ← stSetL s p (some c)
      let s ← stSetP s c (some p)
      pure (s, some c)
    else do
      let s ← stSetR s p (some c)
      let s ← stSetP s c (some p)
      pure (s, some c)

/-- First half of the 2-children case of RBTree::Remove (lines 311-320):
find the successor, splice the left subtree under it, swap colors, and
read off balancePoint = replacement's right child. -/
def rbUnlinkTwoA (s : RBState) (cur l r0 : Nat) : Option (RBState × Nat × Option Nat) := do
  let repl ← descLeft s.heap r0 (s.heap.length + 1)
  let s ← stSetL s repl (some l)
  let s ← stSetP s l (some repl)
  let rc ← getInfo s.heap repl
  let cc ← getInfo s.heap cur
  let s ← stSetInfo s repl cc
  let s ← stSetInfo s cur rc
  let bp ← getR s.heap repl
  pure (s, repl, bp)

/-- The reparenting branch of the 2-children case (lines 322-327), run when
the successor is not the direct right child; its first assignment leaves
the old right child's parent pointer unchanged. -/
def rbUnlinkTwoB (s : RBState) (cur repl : Nat) : Option RBState := do
  let rpOpt ← getP s.heap repl
  if rpOpt != some cur then do
    let rp ← rpOpt
    let rr ← getR s.heap repl
    let s ← stSetL s rp rr
    let cr ← getR s.heap cur
    let s ← stSetR s repl cr
    let cr2 ← (← getR s.heap cur)
    stSetP s cr2 (some repl)
  else pure s

/-- Last part of the 2-children case (lines 329-343): hang the successor
where cur was (or make it the root). -/
def rbUnlinkTwoC (s : RBState) (cur repl : Nat) : Option RBState := do
  if s.root == some cur then do
    let s ← stSetP s repl none
    pure { s with root := some repl }
  else do
    let p ← (← getP s.heap cur)
    let pl ← getL s.heap p
    if pl == some cur then do
      let s ← stSetL s p (some repl)
      stSetP s repl (some p)
    else do
      let s ← stSetR s p (some repl)
      stSetP s repl (some p)

/-- The 2-children case of RBTree::Remove (lines 308-344). -/
def rbUnlinkTwo (s : RBState) (cur l r0 : Nat) : Option (RBState × Option Nat) := do
  let (s, repl, bp) ← rbUnlinkTwoA s cur l r0
  let s ← rbUnlinkTwoB s cur repl
  let s ← rbUnlinkTwoC s cur repl
  pure (s, bp)

/-- The structural unlinking part of RBTree::Remove (lines 250-344).
Returns the new state and the balancePoint local variable. -/
def rbRemoveUnlink (s : RBState) (cur : Nat) : Option (RBState × Option Nat) := do
  let n ← hget s.heap cur
  match n.left, n.right with
  | none, none => rbUnlinkLeaf s cur n.parent
  | some l, none => rbUnlinkOneChild s cur l n.parent
  | none, some r => rbUnlinkOneChild s cur r n.parent
  | some l, some r0 => rbUnlinkTwo s cur l r0

/-- Mirrors RBTree::Remove (lines 231-350), also reporting whether
RemoveFixup was invoked (the condition of line 346). -/
def rbRemoveWithFlag (s : RBState) (item : Int) : Option (RBState × Bool) := do
  let found ← rbFind s.heap item s.root (s.heap.length + 1)
  match found with
  | none => pure (s, false)
  | some cur => do
    let (s, balancePoint) ← rbRemoveUnlink s cur
    let (s, ranFix) ← (do
      match balancePoint with
      | some bp => do
        let cc ← getInfo s.heap cur
        if cc == RBColor.black then do
          let s2 ← rbRemoveFixup s bp
          pure (s2, true)
        else pure (s, false)
      | none => pure (s, false) : Option (RBState × Bool))
    pure ({ s with heap := hdel s.heap cur }, ranFix)

/-- Mirrors RBTree::Remove, forgetting the fixup flag. -/
def rbRemove (s : RBState) (item : Int) : Option RBState :=
  (rbRemoveWithFlag s item).map Prod.fst

/-- The red-red scan of RBTree::IsValid (lines 588-599): inorder iteration
checking that no red node has a red child. -/
def rbRedRedScan (h : Heap RBColor) : Option Nat → Nat → Option Bool
  | none, _ => some true
  | some _, 0 => none
  | some a, fuel+1 => do
    let n ← hget h a
    let leftRed ← (do
      match n.left with
      | some l => do
        let ln ← hget h l
        pure (ln.info == RBColor.red)
      | none => pure false : Option Bool)
    let rightRed ← (do
      match n.right with
      | some r => do
        let rn ← hget h r
        pure (rn.info == RBColor.red)
      | none => pure false : Option Bool)
    if n.info == RBColor.red && (leftRed || rightRed) then pure false
    else do
      let nxt ← inorderSucc h a (h.length + 1)
      rbRedRedScan h nxt fuel

/-- The ancestor climb of RBTree::IsValid check 5 (lines 610-616): count
black nodes from a leaf up to the root, the leaf included. -/
def rbBlackCountUp (h : Heap RBColor) : Option Nat → Nat → Nat → Option Nat
  | none, acc, _ => some acc
  | some _, _, 0 => none
  | some a, acc, fuel+1 => do
    let n ← hget h a
    rbBlackCountUp h n.parent (if n.info == RBColor.black then acc + 1 else acc) fuel

/-- The black-height scan of RBTree::IsValid check 5 (lines 602-621):
postorder iteration comparing the black count over each bottom-most node
with the first such count (mainCount starts at -1). -/
def rbBlackHeightScan (h : Heap RBColor) : PoIter → Int → Nat → Option Bool
  | _, _, 0 => none
  | st, mainCount, fuel+1 =>
    if st == poEndIter then some true else do
      let a ← st.current
      let n ← hget h a
      if n.left != none || n.right != none then do
        let st2 ← poAdvance h st (h.length + 1)
        rbBlackHeightScan h st2 mainCount fuel
      else do
        let cnt ← rbBlackCountUp h (some a) 0 (h.length + 1)
        if mainCount == -1 then do
          let st2 ← poAdvance h st (h.length + 1)
          rbBlackHeightScan h st2 (Int.ofNat cnt) fuel
        else if (Int.ofNat cnt) != mainCount then pure false
        else do
          let st2 ← poAdvance h st (h.length + 1)
          rbBlackHeightScan h st2 mainCount fuel

/-- Mirrors RBTree::IsValid (lines 568-623). -/
def rbIsValid (s : RBState) : Option Bool := do
  let rootBad ← (do
    match s.root with
    | some r => do
      let n ← hget s.heap r
      pure (n.info != RBColor.black)
    | none => pure false : Option Bool)
  if rootBad then pure false
  else do
    let b ← beginPtr s.heap s.root
    let rr ← rbRedRedScan s.heap b (s.heap.length + 1)
    if !rr then pure false
    else do
      let st ← poBegin s.heap s.root (s.heap.length + 1)
      rbBlackHeightScan s.heap st (-1) (s.heap.length + 1)

/-- Mirrors RBTree inorder iteration over the whole tree (range-based for
over begin() to end()). -/
def rbInorder (s : RBState) : Option (List Int) :=
  inorderSeq s.heap s.root

/-- An Insert or Remove call, for describing operation sequences. -/
inductive Op where
  | ins (x : Int)
  | rem (x : Int)
deriving DecidableEq, Repr

/-- Apply one operation to an RBTree state. -/
def rbApply (s : RBState) : Op → Option RBState
  | .ins x => rbInsert s x
  | .rem x => rbRemove s x

/-- Run a sequence of operations on an initially empty RBTree. -/
def rbRunOps (ops : List Op) : Option RBState :=
  ops.foldlM rbApply rbEmpty

/-!
AVL tree (src/avltree.h).  Node::balanceFactor is a C++ int; its values
stay microscopic compared to 2^31, so it is embedded as a plain Int.  The
unsigned height arithmetic of CalculateHeight is embedded mod 2^32.
-/

/-- The balance-factor arithmetic of Node::RightRotate (lines 814-817). -/
def avlRightRotBF (h : Heap Int) (a q : Nat) : Option (Heap Int) := do
  let abf ← getInfo h a
  let qbf ← getInfo h q
  let newBalanceThis := abf + 1 - min qbf 0
  let newBalanceQ := qbf + 1 + max newBalanceThis 0
  let h ← setInfo h a newBalanceThis
  setInfo h q newBalanceQ

/-- Mirrors Node::RightRotate (lines 802-819); returns the new subtree
root, or nullptr if the guard fails (no left child). -/
def avlRightRotate (h : Heap Int) (a : Nat) : Option (Heap Int × Option Nat) := do
  let q? ← getL h a
  match q? with
  | none => pure (h, none)
  | some q => do
    let qr ← getR h q
    let h ← setL h a qr
    let qr2 ← getR h q
    let h ← match qr2 with
      | some c => setP h c (some a)
      | none => pure h
    let h ← setR h q (some a)
    let ap ← getP h a
    let h ← setP h q ap
    let h ← setP h a (some q)
    let h ← avlRightRotBF h a q
    pure (h, some q)

/-- The balance-factor arithmetic of Node::LeftRotate (lines 834-837). -/
def avlLeftRotBF (h : Heap Int) (a q : Nat) : Option (Heap Int) := do
  let abf ← getInfo h a
  let qbf ← getInfo h q
  let newBalanceThis := abf - 1 - max qbf 0
  let newBalanceQ := qbf - 1 + min newBalanceThis 0
  let h ← setInfo h a newBalanceThis
  setInfo h q newBalanceQ

/-- Mirrors Node::LeftRotate (lines 822-839). -/
def avlLeftRotate (h : Heap Int) (a : Nat) : Option (Heap Int × Option Nat) := do
  let q? ← getR h a
  match q? with
  | none => pure (h, none)
  | some q => do
    let ql ← getL h q
    let h ← setR h a ql
    let ql2 ← getL h q
    let h ← match ql2 with
      | some c => setP h c (some a)
      | none => pure h
    let h ← setL h q (some a)
    let ap ← getP h a
    let h ← setP h q ap
    let h ← setP h a (some q)
    let h ← avlLeftRotBF h a q
    pure (h, some q)

/-- Mirrors Node::DoubleRightRotate (lines 842-849): left-rotate the left
child, reattach the result as left child, then right-rotate. -/
def avlDoubleRightRotate (h : Heap Int) (a : Nat) : Option (Heap Int × Option Nat) := do
  let l? ← getL h a
  match l? with
  | none => pure (h, none)
  | some l => do
    let (h, r) ← avlLeftRotate h l
    let h ← setL h a r
    avlRightRotate h a

/-- Mirrors Node::DoubleLeftRotate (lines 852-859). -/
def avlDoubleLeftRotate (h : Heap Int) (a : Nat) : Option (Heap Int × Option Nat) := do
  let r? ← getR h a
  match r? with
  | none => pure (h, none)
  | some r => do
    let (h, l) ← avlRightRotate h r
    let h ← setR h a l
    avlLeftRotate h a

/-- Mirrors Node::Balance (lines 390-411): dispatch on the balance factor;
p stays nullptr when the factor is neither -2 nor 2. -/
def avlBalance (h : Heap Int) (a : Nat) : Option (Heap Int × Option Nat) := do
  let bf ← getInfo h a
  if bf == -2 then do
    let w ← (← getL h a)
    let wbf ← getInfo h w
    if wbf == 1 then avlDoubleRightRotate h a else avlRightRotate h a
  else if bf == 2 then do
    let w ← (← getR h a)
    let wbf ← getInfo h w
    if wbf == -1 then avlDoubleLeftRotate h a else avlLeftRotate h a
  else pure (h, none)

/-- The unsigned 32-bit modulus used by CalculateHeight. -/
def U32 : Nat := 4294967296

/-- Unsigned increment mod 2^32. -/
def u32inc (n : Nat) : Nat := (n + 1) % U32

/-- Unsigned decrement mod 2^32 (wraps at 0, as unsigned int does). -/
def u32dec (n : Nat) : Nat := (n + (U32 - 1)) % U32

/-- Reinterpret an unsigned 32-bit value as a signed int, as the
initializer int calculatedBalanceFactor = rightHeight - leftHeight does. -/
def u32toInt (n : Nat) : Int :=
  if n < 2147483648 then Int.ofNat n else Int.ofNat n - Int.ofNat U32

/-- The counting descend-leftward loops of Node::CalculateHeight (lines
424-428 and 440-444). -/
def descLeftCnt (h : Heap Int) : Nat → Nat → Nat → Option (Nat × Nat)
  | _, _, 0 => none
  | a, ch, fuel+1 => do
    let n ← hget h a
    match n.left with
    | some l => descLeftCnt h l (u32inc ch) fuel
    | none => pure (a, ch)

/-- The ascending loop of Node::CalculateHeight (lines 449-456): climb
while the current node is its parent's right child and is not the node the
height is being computed for, then step to the parent once more. -/
def chClimb (h : Heap Int) (selfA : Nat) : Nat → Nat → Nat → Option (Option Nat × Nat)
  | _, _, 0 => none
  | a, ch, fuel+1 => do
    let n ← hget h a
    match n.parent with
    | none => pure (none, u32dec ch)
    | some p => do
      let pn ← hget h p
      if pn.right == some a && a != selfA then chClimb h selfA p (u32dec ch) fuel
      else pure (some p, u32dec ch)

/-- One iteration of the outer while of Node::CalculateHeight (lines
430-458): bump maxHeight, then descend right-then-left or ascend. -/
def calcHeightStep (h : Heap Int) (selfA : Nat) (a : Nat) (ch mh : Nat) :
    Option (Option Nat × Nat × Nat) := do
  let mh := if ch > mh then ch else mh
  let n ← hget h a
  match n.right with
  | some r => do
    let (a2, ch2) ← descLeftCnt h r (u32inc ch) (h.length + 1)
    pure (some a2, ch2, mh)
  | none => do
    let (a2, ch2) ← chClimb h selfA a ch (h.length + 1)
    pure (a2, ch2, mh)

/-- The outer while of Node::CalculateHeight, iterated with fuel: stops
when current is null or equals the original node's parent. -/
def calcHeightLoop (h : Heap Int) (selfA : Nat) (selfParent : Option Nat) :
    Option Nat → Nat → Nat → Nat → Option Nat
  | _, _, _, 0 => none
  | none, _, mh, _+1 => pure mh
  | some a, ch, mh, fuel+1 =>
    if some a == selfParent then pure mh
    else do
      let (a2, ch2, mh2) ← calcHeightStep h selfA a ch mh
      calcHeightLoop h selfA selfParent a2 ch2 mh2 fuel

/-- Mirrors Node::CalculateHeight (lines 417-460). -/
def avlCalcHeight (h : Heap Int) (a : Nat) : Option Nat := do
  let n ← hget h a
  let (c0, ch0) ← descLeftCnt h a 0 (h.length + 1)
  calcHeightLoop h a n.parent (some c0) ch0 0 ((h.length + 2) * 3)

/-- The balance factor computed by AVLTree::IsValid for one node (lines
874-876): measured right height minus measured left height in unsigned
arithmetic, reinterpreted as int. -/
def avlNodeCalcBF (h : Heap Int) (n : BNode Int) : Option Int := do
  let leftHeight ← match n.left with
    | some l => (avlCalcHeight h l).map fun x => u32inc x
    | none => pure 0
  let rightHeight ← match n.right with
    | some r => (avlCalcHeight h r).map fun x => u32inc x
    | none => pure 0
  pure (u32toInt ((rightHeight + U32 - leftHeight) % U32))

/-- The per-node check loop of AVLTree::IsValid (lines 868-879), an
inorder iteration. -/
def avlValidScan (h : Heap Int) : Option Nat → Nat → Option Bool
  | none, _ => some true
  | some _, 0 => none
  | some a, fuel+1 => do
    let n ← hget h a
    if n.info != (-1) && n.info != 0 && n.info != 1 then pure false
    else do
      let calcBF ← avlNodeCalcBF h n
      if n.info != calcBF then pure false
      else do
        let nxt ← inorderSucc h a (h.length + 1)
        avlValidScan h nxt fuel

/-- Mirrors AVLTree::IsValid (lines 862-881). -/
def avlIsValid (s : AVLState) : Option Bool := do
  let b ← beginPtr s.heap s.root
  avlValidScan s.heap b (s.heap.length + 1)

/-- Mirrors AVLTree::Search (lines 778-793). -/
def avlSearch (s : AVLState) (item : Int) : Option Bool :=
  searchLoop s.heap item s.root (s.heap.length + 1)

/-- Mirrors AVLTree inorder iteration over the whole tree. -/
def avlInorder (s : AVLState) : Option (List Int) :=
  inorderSeq s.heap s.root

/-- The local pointer variables of AVLTree::Insert (lines 244-248). -/
structure AVLInsLocals where
  previous : Option Nat := none
  balancePoint : Option Nat := none
  balancePointPredecessor : Option Nat := none
  balanceFactorUpdateHead : Option Nat := none
deriving DecidableEq, Repr

/-- The item-smaller branch of the Insert descent (lines 257-298). -/
def avlInsDescLt (h : Heap Int) (node cur : Nat) (n : BNode Int) (L : AVLInsLocals) :
    Option (Heap Int × AVLInsLocals × Option Nat) := do
  let L := if n.info > 0 then
      { L with balanceFactorUpdateHead := some cur,
               balancePoint := if L.balancePoint != none then some cur else L.balancePoint }
    else L
  match n.left with
  | none => do
    let h ← setL h cur (some node)
    let h ← setP h node (some cur)
    pure (h, L, none)
  | some l =>
    let L :=
      if n.info < 0 then { L with balancePointPredecessor := L.previous, balancePoint := some cur }
      else if n.info > 0 then { L with balancePointPredecessor := none, balancePoint := none }
      else L
    pure (h, { L with previous := some cur }, some l)

/-- The item-greater branch of the Insert descent (lines 300-332). -/
def avlInsDescGt (h : Heap Int) (node cur : Nat) (n : BNode Int) (L : AVLInsLocals) :
    Option (Heap Int × AVLInsLocals × Option Nat) := do
  let L := if n.info < 0 then
      { L with balanceFactorUpdateHead := some cur,
               balancePoint := if L.balancePoint != none then some cur else L.balancePoint }
    else L
  match n.right with
  | none => do
    let h ← setR h cur (some node)
    let h ← setP h node (some cur)
    pure (h, L, none)
  | some r =>
    let L :=
      if n.info > 0 then { L with balancePointPredecessor := L.previous, balancePoint := some cur }
      else if n.info < 0 then { L with balancePointPredecessor := none, balancePoint := none }
      else L
    pure (h, { L with previous := some cur }, some r)

/-- The while(1) descent of AVLTree::Insert (lines 255-341), including the
equal-item exit that discards the speculative node (lines 333-340). -/
def avlInsDescLoop (h : Heap Int) (item : Int) (node : Nat) :
    Nat → AVLInsLocals → Nat → Option (Heap Int × AVLInsLocals)
  | _, _, 0 => none
  | cur, L, fuel+1 => do
    let n ← hget h cur
    if item < n.item then do
      let (h, L, nxt) ← avlInsDescLt h node cur n L
      match nxt with
      | some c => avlInsDescLoop h item node c L fuel
      | none => pure (h, L)
    else if item > n.item then do
      let (h, L, nxt) ← avlInsDescGt h node cur n L
      match nxt with
      | some c => avlInsDescLoop h item node c L fuel
      | none => pure (h, L)
    else
      pure (hdel h node, { L with balancePoint := none, balanceFactorUpdateHead := none })

/-- The do-while balance-factor update walk of Insert (lines 354-366). -/
def avlBfUpdateLoop (h : Heap Int) (item : Int) (node : Nat) :
    Option Nat → Nat → Option (Heap Int)
  | _, 0 => none
  | head?, fuel+1 => do
    let head ← head?
    let n ← hget h head
    if item < n.item then do
      let h ← setInfo h head (n.info - 1)
      let nxt ← getL h head
      if nxt == some node then pure h else avlBfUpdateLoop h item node nxt fuel
    else do
      let h ← setInfo h head (n.info + 1)
      let nxt ← getR h head
      if nxt == some node then pure h else avlBfUpdateLoop h item node nxt fuel

/-- The Balance call and splice at the end of Insert (lines 369-383).
Note substituteNode is dereferenced, so a null return from Balance is UB
here whenever a predecessor exists. -/
def avlInsertRebalance (s : AVLState) (bp : Nat) (bpPred : Option Nat) : Option AVLState := do
  let (h, sub) ← avlBalance s.heap bp
  let root := if s.root == some bp then sub else s.root
  let s := { s with heap := h, root := root }
  match bpPred with
  | none => pure s
  | some pp => do
    let subA ← sub
    let s ← stSetP s subA (some pp)
    let ppl ← getL s.heap pp
    if ppl == some bp then stSetL s pp (some subA)
    else stSetR s pp (some subA)

/-- Mirrors AVLTree::Insert (lines 239-384). -/
def avlInsert (s : AVLState) (item : Int) : Option AVLState := do
  let a := s.nextAddr
  let h0 : Heap Int := (a, { item := item, info := 0 }) :: s.heap
  let s : AVLState := { heap := h0, root := s.root, nextAddr := a + 1 }
  match s.root with
  | none => pure { s with root := some a }
  | some r0 => do
    let L0 : AVLInsLocals := { balanceFactorUpdateHead := s.root }
    let (h, L) ← avlInsDescLoop s.heap item a r0 L0 (s.heap.length + 1)
    let bfuHead := if L.balancePoint != none then L.balancePoint else L.balanceFactorUpdateHead
    let h ← match bfuHead with
      | none => pure h
      | some bh => avlBfUpdateLoop h item a (some bh) (h.length + 1)
    let s := { s with heap := h }
    match L.balancePoint with
    | none => pure s
    | some bp => avlInsertRebalance s bp L.balancePointPredecessor

/-- The height-decrease propagation do-while of AVLTree::Remove, repeated
verbatim at lines 510-530, 558-577, 604-624, 663-682 and 746-766. -/
def avlPropagate (h : Heap Int) : Nat → Nat → Option (Heap Int)
  | _, 0 => none
  | pred, fuel+1 => do
    let pp? ← getP h pred
    match pp? with
    | none => pure h
    | some pp => do
      let ppl ← getL h pp
      let bf ← getInfo h pp
      if ppl == some pred then do
        let h ← setInfo h pp (bf + 1)
        if bf + 1 == 1 then pure h else avlPropagate h pp fuel
      else do
        let h ← setInfo h pp (bf - 1)
        if bf - 1 == (-1) then pure h else avlPropagate h pp fuel

/-- The guard before each propagation (e.g. lines 508-509): propagate only
when cur's parent exists and its updated balance factor is exactly 0. -/
def avlShortenCheck (h : Heap Int) (cur : Nat) : Option (Heap Int) := do
  let p? ← getP h cur
  match p? with
  | none => pure h
  | some p => do
    let bf ← getInfo h p
    if bf == 0 then avlPropagate h p (h.length + 1)
    else pure h

/-- The 0-children case of AVLTree::Remove (lines 491-531). -/
def avlRemLeaf (s : AVLState) (cur : Nat) : Option (AVLState × Option Nat) := do
  let sbp ← (do
    if s.root == some cur then pure ({ s with root := none }, (none : Option Nat))
    else do
      let p ← (← getP s.heap cur)
      let pl ← getL s.heap p
      let bf ← getInfo s.heap p
      if pl == some cur then do
        let s ← stSetInfo s p (bf + 1)
        let s ← stSetL s p none
        pure (s, some p)
      else do
        let s ← stSetInfo s p (bf - 1)
        let s ← stSetR s p none
        pure (s, some p) : Option (AVLState × Option Nat))
  let s := sbp.1
  let h ← avlShortenCheck s.heap cur
  pure ({ s with heap := h }, sbp.2)

/-- The 1-child cases of AVLTree::Remove (lines 533-579 and 580-626),
with c the unique child. -/
def avlRemOneChild (s : AVLState) (cur c : Nat) : Option (AVLState × Option Nat) := do
  let sbp ← (do
    if s.root == some cur then do
      let s ← stSetP s c none
      pure ({ s with root := some c }, (none : Option Nat))
    else do
      let p ← (← getP s.heap cur)
      let pl ← getL s.heap p
      if pl == some cur then do
        let s ← stSetL s p (some c)
        let bf ← getInfo s.heap p
        let s ← stSetInfo s p (bf + 1)
        let s ← stSetP s c (some p)
        pure (s, some p)
      else do
        let s ← stSetR s p (some c)
        let bf ← getInfo s.heap p
        let s ← stSetInfo s p (bf - 1)
        let s ← stSetP s c (some p)
        pure (s, some p) : Option (AVLState × Option Nat))
  let s := sbp.1
  let h ← avlShortenCheck s.heap cur
  pure ({ s with heap := h }, sbp.2)

/-- The successor search of the 2-children case (lines 630-640), tracking
whether the replacement path stayed on bottom-most nodes. -/
def avlRemTwoFindRepl (h : Heap Int) : Nat → Bool → Nat → Option (Nat × Bool)
  | _, _, 0 => none
  | a, ribm, fuel+1 => do
    let n ← hget h a
    match n.left with
    | none => pure (a, ribm)
    | some l => avlRemTwoFindRepl h l (if n.info >= 0 then false else ribm) fuel

/-- The conditional shortening at current in the 2-children case (lines
642-684). -/
def avlRemTwoA (s : AVLState) (cur r0 : Nat) : Option (AVLState × Nat) := do
  let (repl, ribm) ← avlRemTwoFindRepl s.heap r0 true (s.heap.length + 1)
  if ribm then do
    let cbf ← getInfo s.heap cur
    let s ← stSetInfo s cur (cbf - 1)
    if cbf - 1 >= 0 then do
      let h ← avlPropagate s.heap cur (s.heap.length + 1)
      pure ({ s with heap := h }, repl)
    else pure (s, repl)
  else pure (s, repl)

/-- The splice of the left subtree and balance factor transplant (lines
686-689). -/
def avlRemTwoB (s : AVLState) (cur repl : Nat) : Option AVLState := do
  let cl1 ← getL s.heap cur
  let s ← stSetL s repl cl1
  let cl2 ← (← getL s.heap cur)
  let s ← stSetP s cl2 (some repl)
  let cbf ← getInfo s.heap cur
  stSetInfo s repl cbf

/-- The reparenting branch of the 2-children case (lines 691-698), run
when the successor is deeper than current's right child; returns the
overriding balancePoint when it runs. -/
def avlRemTwoC (s : AVLState) (cur repl : Nat) : Option (AVLState × Option Nat) := do
  let rp? ← getP s.heap repl
  if rp? != some cur then do
    let rp ← rp?
    let rr ← getR s.heap repl
    let s ← stSetL s rp rr
    let bf ← getInfo s.heap rp
    let s ← stSetInfo s rp (bf + 1)
    let cr ← getR s.heap cur
    let s ← stSetR s repl cr
    let cr2 ← (← getR s.heap cur)
    let s ← stSetP s cr2 (some repl)
    pure (s, some rp)
  else pure (s, none)

/-- The final splice of the 2-children case (lines 700-714). -/
def avlRemTwoD (s : AVLState) (cur repl : Nat) : Option AVLState := do
  if s.root == some cur then do
    let s ← stSetP s repl none
    pure { s with root := some repl }
  else do
    let p ← (← getP s.heap cur)
    let pl ← getL s.heap p
    if pl == some cur then do
      let s ← stSetL s p (some repl)
      stSetP s repl (some p)
    else do
      let s ← stSetR s p (some repl)
      stSetP s repl (some p)

/-- The 2-children case of AVLTree::Remove (lines 627-715). -/
def avlRemTwo (s : AVLState) (cur r0 : Nat) : Option (AVLState × Option Nat) := do
  let (s, repl) ← avlRemTwoA s cur r0
  let s ← avlRemTwoB s cur repl
  let (s, bpOver) ← avlRemTwoC s cur repl
  let bp := match bpOver with
    | some x => some x
    | none => some repl
  let s ← avlRemTwoD s cur repl
  pure (s, bp)

/-- One iteration of the rebalancing while loop after the structural
removal (lines 719-774). -/
def avlRemRebalStep (s : AVLState) (bp : Nat) : Option (Bool × AVLState × Option Nat) := do
  let bf ← getInfo s.heap bp
  if bf == -2 || bf == 2 then do
    let bpPred ← getP s.heap bp
    let (h, sub) ← avlBalance s.heap bp
    let root := if s.root == some bp then sub else s.root
    let s : AVLState := { s with heap := h, root := root }
    match bpPred with
    | none => pure (true, s, none)
    | some pp => do
      let subA ← sub
      let s ← stSetP s subA (some pp)
      let s ← (do
        let ppl ← getL s.heap pp
        let bf2 ← getInfo s.heap pp
        if ppl == some bp then do
          let s ← stSetL s pp (some subA)
          stSetInfo s pp (bf2 + 1)
        else do
          let s ← stSetR s pp (some subA)
          stSetInfo s pp (bf2 - 1) : Option AVLState)
      let ppbf ← getInfo s.heap pp
      if ppbf == 0 then do
        let h ← avlPropagate s.heap pp (s.heap.length + 1)
        pure (true, { s with heap := h }, some pp)
      else pure (true, s, some pp)
  else pure (false, s, some bp)

/-- The rebalancing while loop of Remove, iterated with fuel. -/
def avlRemRebalLoop (s : AVLState) : Option Nat → Nat → Option AVLState
  | none, _ => pure s
  | some _, 0 => none
  | some bp, fuel+1 => do
    let (again, s, bp2) ← avlRemRebalStep s bp
    if again then avlRemRebalLoop s bp2 fuel else pure s

/-- The find loop of AVLTree::Remove (lines 470-487), with the (unused
afterwards) balanceUpdateHead tracking of line 475. -/
def avlRemFind (h : Heap Int) (item : Int) :
    Option Nat → Option Nat → Nat → Option (Option Nat × Option Nat)
  | none, buh, _ => pure (none, buh)
  | some _, _, 0 => none
  | some c, buh, fuel+1 => do
    let n ← hget h c
    if n.item == item then pure (some c, buh)
    else do
      let buh := if n.info == 0 then some c else buh
      if item < n.item then avlRemFind h item n.left buh fuel
      else avlRemFind h item n.right buh fuel

/-- Mirrors AVLTree::Remove (lines 463-775). -/
def avlRemove (s : AVLState) (item : Int) : Option AVLState := do
  let (found, _) ← avlRemFind s.heap item s.root s.root (s.heap.length + 1)
  match found with
  | none => pure s
  | some cur => do
    let n ← hget s.heap cur
    let (s, bp) ← (match n.left, n.right with
      | none, none => avlRemLeaf s cur
      | some l, none => avlRemOneChild s cur l
      | none, some r => avlRemOneChild s cur r
      | some _, some r0 => avlRemTwo s cur r0 : Option (AVLState × Option Nat))
    let s : AVLState := { s with heap := hdel s.heap cur }
    avlRemRebalLoop s bp ((s.heap.length + 2) * 2)

/-- Apply one operation to an AVLTree state. -/
def avlApply (s : AVLState) : Op → Option AVLState
  | .ins x => avlInsert s x
  | .rem x => avlRemove s x

/-- Run a sequence of operations on an initially empty AVLTree. -/
def avlRunOps (ops : List Op) : Option AVLState :=
  ops.foldlM avlApply avlEmpty


/-!
Auxiliary definitions used by the claim theorems below.
-/

/-- Pointers of a well-formed state stay below the allocation counter, so
a freshly allocated address cannot collide with or be reached from the
existing nodes. -/
def ptrBounded (s : TState beta) : Bool :=
  (s.heap.all fun p => decide (p.1 < s.nextAddr) &&
    p.2.left.all (fun b => decide (b < s.nextAddr)) &&
    p.2.right.all (fun b => decide (b < s.nextAddr))) &&
  s.root.all (fun b => decide (b < s.nextAddr))

/-- Repeated insertion of the same item into an RBTree. -/
def rbInsertTimes (s : RBState) (x : Int) : Nat → Option RBState
  | 0 => some s
  | n+1 => (rbInsertTimes s x n).bind fun s2 => rbInsert s2 x

/-- Repeated insertion of the same item into an AVLTree. -/
def avlInsertTimes (t : AVLState) (x : Int) : Nat → Option AVLState
  | 0 => some t
  | n+1 => (avlInsertTimes t x n).bind fun t2 => avlInsert t2 x

/-- Operation sequence on which the red-black validity claim fails: after
the final Insert 0, IsValid() returns false. -/
def c1FailOps : List Op := [Op.ins 0, Op.ins 1, Op.ins 2, Op.ins 3, Op.rem 0, Op.ins 0]

/-- Operation sequence on which the AVL validity claim fails: after the
final Remove 0, IsValid() returns false. -/
def c2FailOps : List Op :=
  [Op.ins 0, Op.ins 1, Op.ins 2, Op.ins 4, Op.ins 5, Op.ins 3, Op.ins 6, Op.rem 0]

/-- Insert the set 0..5 in the order 0,1,2,4,5,3, then remove every
element once (order 1,0,2,3,4,5): the round-trip claim fails on it. -/
def c4FailOps : List Op :=
  (([0, 1, 2, 4, 5, 3] : List Int).map Op.ins) ++ (([1, 0, 2, 3, 4, 5] : List Int).map Op.rem)

/-- A small concrete red-black tree containing 1 and 2, for witnesses. -/
def rbTwoState : RBState := (rbRunOps [Op.ins 1, Op.ins 2]).getD rbEmpty

/-- A small concrete AVL tree containing 1 and 2, for witnesses. -/
def avlTwoState : AVLState := (avlRunOps [Op.ins 1, Op.ins 2]).getD avlEmpty



/-!
Abstraction layer for the iterator refinement proofs: address-decorated
binary trees and the (executable) representation check relating a heap to
such a tree.
-/

/-- Address-decorated binary tree: the shape a well-formed pointer tree
spells out in the heap, with each node labelled by its address. -/
inductive ATree where
  | leaf
  | node (a : Nat) (l : ATree) (x : Int) (r : ATree)
deriving DecidableEq, Repr

/-- Address of the root node (none for the empty tree). -/
def ATree.rootAddr : ATree → Option Nat
  | .leaf => none
  | .node a _ _ _ => some a

/-- All addresses of the tree, preorder. -/
def ATree.addrs : ATree → List Nat
  | .leaf => []
  | .node a l _ r => a :: (l.addrs ++ r.addrs)

/-- All items of the tree in inorder. -/
def ATree.items : ATree → List Int
  | .leaf => []
  | .node _ l x r => l.items ++ x :: r.items

/-- Number of nodes. -/
def ATree.size : ATree → Nat
  | .leaf => 0
  | .node _ l _ r => l.size + r.size + 1

/-- Address of the leftmost node. -/
def ATree.lmost : ATree → Option Nat
  | .leaf => none
  | .node a l _ _ =>
    match l.lmost with
    | some m => some m
    | none => some a

/-- Executable check that heap h represents tree t, whose root's parent
pointer is p: every decorated node is live and stores exactly the decorated
item, the children's root addresses, and its parent's address. -/
def reprAt (h : Heap beta) (p : Option Nat) : ATree → Bool
  | .leaf => true
  | .node a l _x r =>
    match hget h a with
    | none => false
    | some n =>
      n.item == _x && n.parent == p && n.left == l.rootAddr && n.right == r.rootAddr &&
      reprAt h (some a) l && reprAt h (some a) r

/-- Strictly ascending comparison of adjacent elements. -/
def strictAsc : List Int → Bool
  | [] => true
  | [_] => true
  | x :: y :: rest => decide (x < y) && strictAsc (y :: rest)

/-- Every item of the tree satisfies p. -/
def ATree.allB (p : Int → Bool) : ATree → Bool
  | .leaf => true
  | .node _ l x r => p x && l.allB p && r.allB p

/-- Structural binary-search-tree order: left items below, right items
above the node item, recursively. -/
def ATree.isBST : ATree → Bool
  | .leaf => true
  | .node _ l x r =>
    l.allB (fun y => decide (y < x)) && r.allB (fun y => decide (x < y)) &&
    l.isBST && r.isBST


/-- A concrete three-node red-black heap for witnesses: the root at address
0 holds 1 and is black; its children at addresses 1 and 2 hold 0 and 2. -/
def rbThreeHeap : Heap RBColor :=
  [(0, { item := 1, info := RBColor.black, left := some 1, right := some 2 }),
   (1, { item := 0, info := RBColor.red, parent := some 0 }),
   (2, { item := 2, info := RBColor.red, parent := some 0 })]

def rbThreeState : RBState := { heap := rbThreeHeap, root := some 0, nextAddr := 3 }

def avlThreeHeap : Heap Int :=
  [(0, { item := 1, info := 0, left := some 1, right := some 2 }),
   (1, { item := 0, info := 0, parent := some 0 }),
   (2, { item := 2, info := 0, parent := some 0 })]

def avlThreeState : AVLState := { heap := avlThreeHeap, root := some 0, nextAddr := 3 }

def threeATree : ATree :=
  .node 0 (.node 1 .leaf 0 .leaf) 1 (.node 2 .leaf 2 .leaf)

/-- Items of the tree in postorder: left subtree, right subtree, node. -/
def ATree.postItems : ATree → List Int
  | .leaf => []
  | .node _ l x r => l.postItems ++ r.postItems ++ [x]

/-- The phase flag the postorder iterator stores right after visiting the
node at a whose parent pointer is p, as computed by src/rbtree.h lines
779-791: it stays upward exactly when a is its parent's right child. -/
def phaseAfter (h : Heap beta) (p : Option Nat) (a : Nat) : Option Bool :=
  match p with
  | none => some true
  | some pp => (hget h pp).map (fun pn => if pn.right == some a then false else true)

/-- Delete a list of addresses from the heap, in order. -/
def removeList (h : Heap beta) (S : List Nat) : Heap beta := S.foldl hdel h

/-- Mirrors the loop of RBTree::Clear (src/rbtree.h lines 165-166) and
AVLTree::Clear: for (itr = postorder begin; itr != end; ++itr) delete
itr.GetNode().  Each delete happens before the iterator advances, and
delete of a null GetNode() is a no-op. -/
def clearLoop (h : Heap beta) : PoIter → Nat → Option (Heap beta)
  | _, 0 => none
  | st, fuel+1 =>
    if st == poEndIter then some h
    else
      let h2 := match st.current with
        | some a => hdel h a
        | none => h
      do
        let st2 ← poAdvance h2 st (h2.length + 1)
        clearLoop h2 st2 fuel

/-- Mirrors RBTree::Clear / AVLTree::Clear in full (src/rbtree.h lines
163-169, also run by the destructor): the deleting postorder walk followed
by root = nullptr. -/
def stClear (s : TState beta) : Option (TState beta) := do
  let st ← poBegin s.heap s.root (s.heap.length + 1)
  let h2 ← clearLoop s.heap st (s.heap.length + 1)
  pure { heap := h2, root := none, nextAddr := s.nextAddr }

/-- The sorted-merge intersection computed by the Intersect loop
(src/rbtree.h lines 633-644, src/avltree.h lines 1087-1098) over the two
ascending iteration sequences. -/
def listInter : List Int → List Int → List Int
  | [], _ => []
  | _ :: _, [] => []
  | x :: xs, y :: ys =>
    if x == y then x :: listInter xs ys
    else if x < y then listInter xs (y :: ys)
    else listInter (x :: xs) ys
termination_by xs ys => xs.length + ys.length

/-- Folding RBTree::Insert over a list of items. -/
def rbInsertList (s : RBState) : List Int → Option RBState
  | [] => some s
  | z :: zs => (rbInsert s z).bind fun s2 => rbInsertList s2 zs

/-- Folding AVLTree::Insert over a list of items. -/
def avlInsertList (s : AVLState) : List Int → Option AVLState
  | [] => some s
  | z :: zs => (avlInsert s z).bind fun s2 => avlInsertList s2 zs

/-- Mirrors the while loop of RBTree::Intersect (src/rbtree.h lines
633-644): left is the inorder cursor over this tree's heap (null =
end()), right the other container's iterator, modeled by the list of
items its ordered iteration has yet to yield. -/
def rbIntersectLoop (h : Heap RBColor) :
    Option Nat → List Int → RBState → Nat → Option RBState
  | _, _, _, 0 => none
  | none, _, acc, _+1 => some acc
  | some _, [], acc, _+1 => some acc
  | some ca, y :: ys, acc, fuel+1 => do
    let n ← hget h ca
    if n.item == y then do
      let acc2 ← rbInsert acc n.item
      let nxt ← inorderSucc h ca (h.length + 1)
      rbIntersectLoop h nxt ys acc2 fuel
    else if n.item < y then do
      let nxt ← inorderSucc h ca (h.length + 1)
      rbIntersectLoop h nxt (y :: ys) acc fuel
    else
      rbIntersectLoop h (some ca) ys acc fuel

/-- Mirrors RBTree::Intersect (src/rbtree.h lines 626-647) against an
abstract ordered container U, represented by the item list its iteration
yields. -/
def rbIntersect (s : RBState) (ys : List Int) : Option RBState := do
  let c0 ← beginPtr s.heap s.root
  rbIntersectLoop s.heap c0 ys rbEmpty (s.heap.length + ys.length + 1)

/-- Mirrors the while loop of AVLTree::Intersect (src/avltree.h lines
1087-1098). -/
def avlIntersectLoop (h : Heap Int) :
    Option Nat → List Int → AVLState → Nat → Option AVLState
  | _, _, _, 0 => none
  | none, _, acc, _+1 => some acc
  | some _, [], acc, _+1 => some acc
  | some ca, y :: ys, acc, fuel+1 => do
    let n ← hget h ca
    if n.item == y then do
      let acc2 ← avlInsert acc n.item
      let nxt ← inorderSucc h ca (h.length + 1)
      avlIntersectLoop h nxt ys acc2 fuel
    else if n.item < y then do
      let nxt ← inorderSucc h ca (h.length + 1)
      avlIntersectLoop h nxt (y :: ys) acc fuel
    else
      avlIntersectLoop h (some ca) ys acc fuel

/-- Mirrors AVLTree::Intersect (src/avltree.h lines 1080-1101). -/
def avlIntersect (s : AVLState) (ys : List Int) : Option AVLState := do
  let c0 ← beginPtr s.heap s.root
  avlIntersectLoop s.heap c0 ys avlEmpty (s.heap.length + ys.length + 1)

/-!
Theorems.  First a toolbox of facts about the embedded loops, then one
theorem (plus witness where needed) per claim of the specification.
-/

theorem searchLoop_none (h : Heap beta) (x : Int) (fuel : Nat) :
    searchLoop h x none fuel = some false := by
  cases fuel <;> rfl

theorem beginPtr_none (h : Heap beta) : beginPtr h none = some none := rfl

theorem inorderSeq_none (h : Heap beta) : inorderSeq h none = some [] := by
  simp [inorderSeq, beginPtr, inorderFrom, bind]

theorem rbIsValid_rootNone (s : RBState) (hr : s.root = none) :
    rbIsValid s = some true := by
  simp [rbIsValid, hr, beginPtr, rbRedRedScan, poBegin, rbBlackHeightScan, poEndIter, bind]

theorem avlIsValid_rootNone (s : AVLState) (hr : s.root = none) :
    avlIsValid s = some true := by
  simp [avlIsValid, hr, beginPtr, avlValidScan, bind]

theorem searchLoop_eq_find (h : Heap RBColor) (x : Int) :
    ∀ fuel cur, searchLoop h x cur fuel = (rbFind h x cur fuel).map (fun r => r.isSome)
  | 0, none => rfl
  | 0, some _ => rfl
  | _+1, none => rfl
  | fuel+1, some a => by
    simp only [searchLoop, rbFind, bind]
    cases hg : hget h a with
    | none => rfl
    | some n =>
      simp only [Option.some_bind]
      by_cases he : (n.item == x) = true
      · rw [if_pos he, if_pos he]; rfl
      · rw [if_neg he, if_neg he]
        by_cases hlt : x < n.item
        · rw [if_pos hlt, if_pos hlt]
          exact searchLoop_eq_find h x fuel n.left
        · rw [if_neg hlt, if_neg hlt]
          exact searchLoop_eq_find h x fuel n.right

theorem rbFind_of_search_false (s : RBState) (x : Int)
    (hs : rbSearch s x = some false) :
    rbFind s.heap x s.root (s.heap.length + 1) = some none := by
  have hcorr := searchLoop_eq_find s.heap x (s.heap.length + 1) s.root
  rw [rbSearch] at hs
  rw [hs] at hcorr
  cases hf : rbFind s.heap x s.root (s.heap.length + 1) with
  | none => rw [hf] at hcorr; simp at hcorr
  | some r =>
    rw [hf] at hcorr
    cases r with
    | none => rfl
    | some a => simp at hcorr

theorem rbRemove_absent (s : RBState) (x : Int)
    (hs : rbSearch s x = some false) :
    rbRemove s x = some s := by
  have hf := rbFind_of_search_false s x hs
  simp [rbRemove, rbRemoveWithFlag, hf, bind]

theorem searchLoop_eq_avlRemFind (h : Heap Int) (x : Int) :
    ∀ fuel cur buh, searchLoop h x cur fuel =
      (avlRemFind h x cur buh fuel).map (fun r => r.1.isSome)
  | 0, none, _ => rfl
  | 0, some _, _ => rfl
  | _+1, none, _ => rfl
  | fuel+1, some a, buh => by
    simp only [searchLoop, avlRemFind, bind]
    cases hg : hget h a with
    | none => rfl
    | some n =>
      simp only [Option.some_bind]
      by_cases he : (n.item == x) = true
      · rw [if_pos he, if_pos he]; rfl
      · rw [if_neg he, if_neg he]
        by_cases hlt : x < n.item
        · rw [if_pos hlt, if_pos hlt]
          exact searchLoop_eq_avlRemFind h x fuel n.left _
        · rw [if_neg hlt, if_neg hlt]
          exact searchLoop_eq_avlRemFind h x fuel n.right _

theorem avlRemFind_of_search_false (s : AVLState) (x : Int)
    (hs : avlSearch s x = some false) :
    ∃ buh, avlRemFind s.heap x s.root s.root (s.heap.length + 1) = some (none, buh) := by
  have hcorr := searchLoop_eq_avlRemFind s.heap x (s.heap.length + 1) s.root s.root
  rw [avlSearch] at hs
  rw [hs] at hcorr
  cases hf : avlRemFind s.heap x s.root s.root (s.heap.length + 1) with
  | none => rw [hf] at hcorr; simp at hcorr
  | some r =>
    obtain ⟨r1, r2⟩ := r
    cases r1 with
    | none => exact ⟨r2, rfl⟩
    | some a =>
      rw [hf] at hcorr
      simp at hcorr

theorem avlRemove_absent (s : AVLState) (x : Int)
    (hs : avlSearch s x = some false) :
    avlRemove s x = some s := by
  obtain ⟨buh, hf⟩ := avlRemFind_of_search_false s x hs
  simp [avlRemove, hf, bind]

theorem hget_cons_ne (h : Heap beta) (a c : Nat) (nd : BNode beta) (hne : c ≠ a) :
    hget ((a, nd) :: h) c = hget h c := by
  simp only [hget, List.find?]
  have : (a == c) = false := by simpa using fun e => hne e.symm
  rw [this]

theorem hget_mem (h : Heap beta) (c : Nat) (n : BNode beta) (hg : hget h c = some n) :
    (c, n) ∈ h := by
  simp only [hget, Option.map_eq_some'] at hg
  obtain ⟨p, hp, hsnd⟩ := hg
  have hmem := List.mem_of_find?_eq_some hp
  have hpred := List.find?_some (p := fun q : Nat × BNode beta => q.1 == c) hp
  have h1 : p.1 = c := by simpa using hpred
  obtain ⟨p1, p2⟩ := p
  simp only at h1 hsnd
  rw [h1, hsnd] at hmem
  exact hmem

theorem hdel_cons_fresh (h : Heap beta) (a : Nat) (nd : BNode beta)
    (hb : ∀ p ∈ h, p.1 ≠ a) : hdel ((a, nd) :: h) a = h := by
  simp only [hdel, List.filter]
  have : ((a, nd).1 != a) = false := by simp
  rw [this]
  exact List.filter_eq_self.mpr (by intro p hp; simpa using hb p hp)

theorem rbInsertDescend_dup (h : Heap RBColor) (a : Nat) (nd : BNode RBColor) (x : Int)
    (hb : ∀ p ∈ h, p.1 < a ∧ p.2.left.all (fun b => decide (b < a)) = true ∧
                   p.2.right.all (fun b => decide (b < a)) = true) :
    ∀ fuel fuel2 cur prev, fuel ≤ fuel2 →
      cur.all (fun b => decide (b < a)) = true →
      searchLoop h x cur fuel = some true →
      rbInsertDescend ((a, nd) :: h) x cur prev fuel2 = some .dup := by
  intro fuel
  induction fuel with
  | zero =>
    intro fuel2 cur prev _ _ hs
    cases cur with
    | none => simp [searchLoop] at hs
    | some c => simp [searchLoop] at hs
  | succ f ih =>
    intro fuel2 cur prev hle hcb hs
    cases cur with
    | none => simp [searchLoop] at hs
    | some c =>
      cases fuel2 with
      | zero => omega
      | succ f2 =>
        have hca : c < a := by simpa using hcb
        have hgg : hget ((a, nd) :: h) c = hget h c :=
          hget_cons_ne h a c nd (Nat.ne_of_lt hca)
        simp only [searchLoop, bind] at hs
        cases hg : hget h c with
        | none => rw [hg] at hs; simp at hs
        | some n =>
          rw [hg] at hs
          simp only [Option.some_bind] at hs
          have hbn := hb (c, n) (hget_mem h c n hg)
          simp only [rbInsertDescend, bind, hgg, hg, Option.some_bind]
          by_cases he : (n.item == x) = true
          · have hx : n.item = x := by simpa using he
            rw [if_neg (by omega), if_neg (by omega)]
          · rw [if_neg he] at hs
            by_cases hlt : x < n.item
            · rw [if_pos hlt] at hs
              rw [if_pos hlt]
              exact ih f2 n.left (some c) (by omega) hbn.2.1 hs
            · rw [if_neg hlt] at hs
              have hgt : x > n.item := by
                have : ¬ n.item = x := by simpa using he
                omega
              rw [if_neg hlt, if_pos hgt]
              exact ih f2 n.right (some c) (by omega) hbn.2.2 hs

theorem ptrBounded_elim (s : TState beta) (hb : ptrBounded s = true) :
    (∀ p ∈ s.heap, p.1 < s.nextAddr ∧
      p.2.left.all (fun b => decide (b < s.nextAddr)) = true ∧
      p.2.right.all (fun b => decide (b < s.nextAddr)) = true) ∧
    s.root.all (fun b => decide (b < s.nextAddr)) = true := by
  simp only [ptrBounded, Bool.and_eq_true, List.all_eq_true] at hb
  exact ⟨fun p hp => ⟨by simpa using (hb.1 p hp).1.1, (hb.1 p hp).1.2, (hb.1 p hp).2⟩, hb.2⟩

theorem rbInsert_dup (s : RBState) (x : Int)
    (hb : ptrBounded s = true) (hs : rbSearch s x = some true) :
    rbInsert s x = some ⟨s.heap, s.root, s.nextAddr + 1⟩ := by
  obtain ⟨hbh, hbr⟩ := ptrBounded_elim s hb
  have hdesc := rbInsertDescend_dup s.heap s.nextAddr
      { item := x, info := RBColor.red } x hbh (s.heap.length + 1) (s.heap.length + 2)
      s.root none (by omega) hbr hs
  have hfresh : hdel ((s.nextAddr, ({ item := x, info := RBColor.red } : BNode RBColor)) :: s.heap)
      s.nextAddr = s.heap :=
    hdel_cons_fresh s.heap s.nextAddr _ (fun p hp => Nat.ne_of_lt (hbh p hp).1)
  simp only [rbInsert, bind]
  rw [show ((s.nextAddr, ({ item := x, info := RBColor.red } : BNode RBColor)) :: s.heap).length + 1
      = s.heap.length + 2 from by simp]
  rw [hdesc]
  simp only [Option.some_bind, hfresh]
  rfl

theorem avlInsDescLoop_dup (h : Heap Int) (a : Nat) (nd : BNode Int) (x : Int)
    (hb : ∀ p ∈ h, p.1 < a ∧ p.2.left.all (fun b => decide (b < a)) = true ∧
                   p.2.right.all (fun b => decide (b < a)) = true) :
    ∀ fuel fuel2 cur L, fuel ≤ fuel2 → cur < a →
      searchLoop h x (some cur) fuel = some true →
      ∃ L2, avlInsDescLoop ((a, nd) :: h) x a cur L fuel2 =
          some (hdel ((a, nd) :: h) a, L2) ∧
        L2.balancePoint = none ∧ L2.balanceFactorUpdateHead = none := by
  intro fuel
  induction fuel with
  | zero =>
    intro fuel2 cur L _ _ hs
    simp [searchLoop] at hs
  | succ f ih =>
    intro fuel2 cur L hle hca hs
    cases fuel2 with
    | zero => omega
    | succ f2 =>
      have hgg : hget ((a, nd) :: h) cur = hget h cur :=
        hget_cons_ne h a cur nd (Nat.ne_of_lt hca)
      simp only [searchLoop, bind] at hs
      cases hg : hget h cur with
      | none => rw [hg] at hs; simp at hs
      | some n =>
        rw [hg] at hs
        simp only [Option.some_bind] at hs
        have hbn := hb (cur, n) (hget_mem h cur n hg)
        simp only [avlInsDescLoop, bind, hgg, hg, Option.some_bind]
        by_cases he : (n.item == x) = true
        · have hx : n.item = x := by simpa using he
          rw [if_neg (by omega), if_neg (by omega)]
          exact ⟨_, rfl, rfl, rfl⟩
        · rw [if_neg he] at hs
          by_cases hlt : x < n.item
          · rw [if_pos hlt] at hs
            rw [if_pos hlt]
            cases hl : n.left with
            | none => rw [hl] at hs; simp [searchLoop] at hs
            | some l =>
              rw [hl] at hs
              have hlb : l < a := by
                have hx := hbn.2.1
                rw [hl] at hx
                simpa using hx
              obtain ⟨L2, hrun, h1, h2⟩ := ih f2 l _ (by omega) hlb hs
              refine ⟨L2, ?_, h1, h2⟩
              simp only [avlInsDescLt, hl, Option.some_bind, bind]
              simpa using hrun
          · rw [if_neg hlt] at hs
            have hgt : x > n.item := by
              have : ¬ n.item = x := by simpa using he
              omega
            rw [if_neg hlt, if_pos hgt]
            cases hr : n.right with
            | none => rw [hr] at hs; simp [searchLoop] at hs
            | some r =>
              rw [hr] at hs
              have hrb : r < a := by
                have hx := hbn.2.2
                rw [hr] at hx
                simpa using hx
              obtain ⟨L2, hrun, h1, h2⟩ := ih f2 r _ (by omega) hrb hs
              refine ⟨L2, ?_, h1, h2⟩
              simp only [avlInsDescGt, hr, Option.some_bind, bind]
              simpa using hrun

theorem avlInsert_dup (s : AVLState) (x : Int)
    (hb : ptrBounded s = true) (hs : avlSearch s x = some true) :
    avlInsert s x = some ⟨s.heap, s.root, s.nextAddr + 1⟩ := by
  obtain ⟨hbh, hbr⟩ := ptrBounded_elim s hb
  have hfresh : hdel ((s.nextAddr, ({ item := x, info := 0 } : BNode Int)) :: s.heap)
      s.nextAddr = s.heap :=
    hdel_cons_fresh s.heap s.nextAddr _ (fun p hp => Nat.ne_of_lt (hbh p hp).1)
  cases hroot : s.root with
  | none => rw [avlSearch, hroot] at hs; simp [searchLoop_none] at hs
  | some r0 =>
    have hr0 : r0 < s.nextAddr := by
      have hx := hbr
      rw [hroot] at hx
      simpa using hx
    rw [avlSearch, hroot] at hs
    obtain ⟨L2, hrun, h1, h2⟩ := avlInsDescLoop_dup s.heap s.nextAddr
      { item := x, info := 0 } x hbh (s.heap.length + 1) (s.heap.length + 2) r0
      { balanceFactorUpdateHead := some r0 } (by omega) hr0 hs
    simp only [avlInsert, bind, hroot]
    rw [show ((s.nextAddr, ({ item := x, info := 0 } : BNode Int)) :: s.heap).length + 1
        = s.heap.length + 2 from by simp]
    rw [hrun]
    simp only [Option.some_bind, h1, h2]
    simp only [hfresh]
    rfl

theorem optAll_lt_mono (o : Option Nat) (m m2 : Nat) (hle : m ≤ m2)
    (h : o.all (fun b => decide (b < m)) = true) :
    o.all (fun b => decide (b < m2)) = true := by
  cases o with
  | none => rfl
  | some v =>
    simp only [Option.all] at h ⊢
    simp at h ⊢
    omega

theorem ptrBounded_shift (s : TState beta) (k : Nat) (hb : ptrBounded s = true) :
    ptrBounded ⟨s.heap, s.root, s.nextAddr + k⟩ = true := by
  simp only [ptrBounded, Bool.and_eq_true, List.all_eq_true] at hb ⊢
  refine ⟨fun p hp => ?_, optAll_lt_mono _ _ _ (by omega) hb.2⟩
  have hf := hb.1 p hp
  simp only [Bool.and_eq_true] at hf ⊢
  refine ⟨⟨by simp at hf ⊢; omega, ?_⟩, ?_⟩
  · exact optAll_lt_mono _ _ _ (by omega) hf.1.2
  · exact optAll_lt_mono _ _ _ (by omega) hf.2

theorem rbInsertTimes_dup (s : RBState) (x : Int)
    (hb : ptrBounded s = true) (hs : rbSearch s x = some true) :
    ∀ n, rbInsertTimes s x n = some ⟨s.heap, s.root, s.nextAddr + n⟩
  | 0 => rfl
  | n+1 => by
    rw [rbInsertTimes, rbInsertTimes_dup s x hb hs n]
    simp only [Option.some_bind]
    have hb2 : ptrBounded (⟨s.heap, s.root, s.nextAddr + n⟩ : RBState) = true :=
      ptrBounded_shift s n hb
    have hs2 : rbSearch ⟨s.heap, s.root, s.nextAddr + n⟩ x = some true := hs
    rw [rbInsert_dup _ x hb2 hs2]
    rfl

theorem avlInsertTimes_dup (t : AVLState) (x : Int)
    (hb : ptrBounded t = true) (hs : avlSearch t x = some true) :
    ∀ n, avlInsertTimes t x n = some ⟨t.heap, t.root, t.nextAddr + n⟩
  | 0 => rfl
  | n+1 => by
    rw [avlInsertTimes, avlInsertTimes_dup t x hb hs n]
    simp only [Option.some_bind]
    have hb2 : ptrBounded (⟨t.heap, t.root, t.nextAddr + n⟩ : AVLState) = true :=
      ptrBounded_shift t n hb
    have hs2 : avlSearch ⟨t.heap, t.root, t.nextAddr + n⟩ x = some true := hs
    rw [avlInsert_dup _ x hb2 hs2]
    rfl

/-- Claim C1: the specification states that IsValid() returns true after
every Insert/Remove on an initially empty red-black tree.  The code
violates this: after the six operations Insert 0,1,2,3, Remove 0,
Insert 0, IsValid() returns false (it held after every proper prefix).
Removing the Black leaf 0 skips RemoveFixup because balancePoint is left
null in the 0-children case, silently losing the equal-black-height
invariant, which the next insertion exposes. -/
theorem rb_isValid_false_after_c1FailOps :
    (rbRunOps c1FailOps).bind rbIsValid = some false ∧
    ((List.range 6).all fun k =>
      ((rbRunOps (c1FailOps.take k)).bind rbIsValid) == some true) = true :=
  ⟨by rfl, by rfl⟩

/-- Claim C2: the specification states that after every operation on an
initially empty AVL tree every stored balance factor is in -1..1 and
matches the measured heights (IsValid() true).  The code violates this:
after Insert 0,1,2,4,5,3,6 and Remove 0, IsValid() returns false (it held
after every proper prefix); the removal's height-decrease propagation
leaves a stale balance factor. -/
theorem avl_isValid_false_after_c2FailOps :
    (avlRunOps c2FailOps).bind avlIsValid = some false ∧
    ((List.range 8).all fun k =>
      ((avlRunOps (c2FailOps.take k)).bind avlIsValid) == some true) = true :=
  ⟨by rfl, by rfl⟩

/-- Claim C3: the specification states that whenever the physically removed
node was Black, RemoveFixup runs from the node that moved into its place,
including the no-children case.  The code violates this: in the tree built
by inserting 0,1,2,3, the node holding 0 (heap address 0) is Black with no
children, yet Remove 0 reports that RemoveFixup was never invoked (the
flag mirrors the condition of rbtree.h line 346, which requires a non-null
balancePoint that the 0-children case never sets). -/
theorem rb_remove_black_leaf_skips_fixup :
    ((rbRunOps (([0, 1, 2, 3] : List Int).map Op.ins)).map fun s =>
      (rbFind s.heap 0 s.root (s.heap.length + 1),
       getInfo s.heap 0,
       getL s.heap 0,
       getR s.heap 0,
       (rbRemoveWithFlag s 0).map Prod.snd))
    = some (some (some 0), some RBColor.black, some none, some none, some false) := by
  rfl

/-- Claim C4: the specification states that inserting a set of items and
then removing every element one at a time leaves an empty, valid tree.
The code violates this on the red-black tree: inserting 0,1,2,4,5,3 and
removing 1,0,2,3,4,5 dereferences a freed node during Remove 3 (the
two-children case of the earlier Remove 2 left a stale parent pointer to
the deleted node), so the embedded run aborts (returns none) where the
C++ commits use-after-free; the first nine operations are well defined. -/
theorem rb_drain_hits_use_after_free :
    rbRunOps c4FailOps = none ∧ (rbRunOps (c4FailOps.take 9)).isSome = true :=
  ⟨by rfl, by rfl⟩

/-- Claim C8: inserting an already-present key any number of times is a
no-op on both trees: the heap and root pointer (hence every node, link,
the inorder sequence and validity) are unchanged; only the allocation
counter advances, mirroring new followed by delete of the speculative
node. -/
theorem duplicate_insert_noop (s : RBState) (t : AVLState) (x y : Int)
    (hbs : ptrBounded s = true) (hs : rbSearch s x = some true)
    (hbt : ptrBounded t = true) (ht : avlSearch t y = some true) (n m : Nat) :
    (∃ s2, rbInsertTimes s x n = some s2 ∧ s2.heap = s.heap ∧ s2.root = s.root ∧
      rbInorder s2 = rbInorder s ∧ rbIsValid s2 = rbIsValid s) ∧
    (∃ t2, avlInsertTimes t y m = some t2 ∧ t2.heap = t.heap ∧ t2.root = t.root ∧
      avlInorder t2 = avlInorder t ∧ avlIsValid t2 = avlIsValid t) :=
  ⟨⟨⟨s.heap, s.root, s.nextAddr + n⟩, rbInsertTimes_dup s x hbs hs n, rfl, rfl, rfl, rfl⟩,
   ⟨⟨t.heap, t.root, t.nextAddr + m⟩, avlInsertTimes_dup t y hbt ht m, rfl, rfl, rfl, rfl⟩⟩

/-- Witness for claim C8 at a concrete two-node tree and key 1, inserted
three more times (RB) and twice more (AVL). -/
theorem duplicate_insert_noop_witness :
    ptrBounded rbTwoState = true ∧ rbSearch rbTwoState 1 = some true ∧
    ptrBounded avlTwoState = true ∧ avlSearch avlTwoState 1 = some true ∧
    ((∃ s2, rbInsertTimes rbTwoState 1 3 = some s2 ∧ s2.heap = rbTwoState.heap ∧
        s2.root = rbTwoState.root ∧ rbInorder s2 = rbInorder rbTwoState ∧
        rbIsValid s2 = rbIsValid rbTwoState) ∧
     (∃ t2, avlInsertTimes avlTwoState 1 2 = some t2 ∧ t2.heap = avlTwoState.heap ∧
        t2.root = avlTwoState.root ∧ avlInorder t2 = avlInorder avlTwoState ∧
        avlIsValid t2 = avlIsValid avlTwoState)) :=
  ⟨by decide, by decide, by decide, by decide,
   duplicate_insert_noop rbTwoState avlTwoState 1 1 (by decide) (by decide)
     (by decide) (by decide) 3 2⟩

/-- Claim C9: removing an absent key is a silent no-op on both trees: the
resulting state is literally the original one (structure, colors and
balance factors, element sequence all unchanged). -/
theorem remove_absent_noop (s : RBState) (t : AVLState) (x y : Int)
    (hs : rbSearch s x = some false) (ht : avlSearch t y = some false) :
    rbRemove s x = some s ∧ avlRemove t y = some t :=
  ⟨rbRemove_absent s x hs, avlRemove_absent t y ht⟩

/-- Witness for claim C9 at a concrete two-node tree and the absent key 5. -/
theorem remove_absent_noop_witness :
    rbSearch rbTwoState 5 = some false ∧ avlSearch avlTwoState 5 = some false ∧
    rbRemove rbTwoState 5 = some rbTwoState ∧ avlRemove avlTwoState 5 = some avlTwoState := by
  refine ⟨by decide, by decide, ?_, ?_⟩
  · exact (remove_absent_noop rbTwoState avlTwoState 5 5 (by decide) (by decide)).1
  · exact (remove_absent_noop rbTwoState avlTwoState 5 5 (by decide) (by decide)).2

/-- Claim C10: on a tree whose root is null (freshly constructed or
cleared), IsValid() returns true, Search returns false for every item,
begin() equals end() (the begin cursor is the null current pointer), and
the inorder iteration yields the empty sequence - for both trees. -/
theorem empty_tree_properties (s : RBState) (t : AVLState)
    (hr : s.root = none) (ht : t.root = none) :
    rbIsValid s = some true ∧ (∀ x : Int, rbSearch s x = some false) ∧
    beginPtr s.heap s.root = some none ∧ rbInorder s = some [] ∧
    avlIsValid t = some true ∧ (∀ x : Int, avlSearch t x = some false) ∧
    beginPtr t.heap t.root = some none ∧ avlInorder t = some [] := by
  refine ⟨rbIsValid_rootNone s hr, fun x => ?_, ?_, ?_, avlIsValid_rootNone t ht,
    fun x => ?_, ?_, ?_⟩
  · simp [rbSearch, hr, searchLoop_none]
  · simp [hr, beginPtr_none]
  · simp [rbInorder, hr, inorderSeq_none]
  · simp [avlSearch, ht, searchLoop_none]
  · simp [ht, beginPtr_none]
  · simp [avlInorder, ht, inorderSeq_none]

/-- Witness for claim C10 at the freshly constructed trees. -/
theorem empty_tree_properties_witness :
    rbIsValid rbEmpty = some true ∧ (∀ x : Int, rbSearch rbEmpty x = some false) ∧
    beginPtr rbEmpty.heap rbEmpty.root = some none ∧ rbInorder rbEmpty = some [] ∧
    avlIsValid avlEmpty = some true ∧ (∀ x : Int, avlSearch avlEmpty x = some false) ∧
    beginPtr avlEmpty.heap avlEmpty.root = some none ∧ avlInorder avlEmpty = some [] :=
  empty_tree_properties rbEmpty avlEmpty rfl rfl



theorem descLeft_mono (h : Heap beta) :
    ∀ fuel fuel2 a v, fuel ≤ fuel2 → descLeft h a fuel = some v →
      descLeft h a fuel2 = some v := by
  intro fuel
  induction fuel with
  | zero => intro fuel2 a v _ hd; simp [descLeft] at hd
  | succ f ih =>
    intro fuel2 a v hle hd
    cases fuel2 with
    | zero => omega
    | succ f2 =>
      simp only [descLeft, bind] at hd ⊢
      cases hg : hget h a with
      | none => rw [hg] at hd; simp at hd
      | some n =>
        rw [hg] at hd
        simp only [Option.some_bind] at hd ⊢
        cases hl : n.left with
        | none => rw [hl] at hd; exact hd
        | some l => rw [hl] at hd; exact ih f2 l v (by omega) hd

theorem climbLeft_mono (h : Heap beta) :
    ∀ fuel fuel2 a v, fuel ≤ fuel2 → climbLeft h a fuel = some v →
      climbLeft h a fuel2 = some v := by
  intro fuel
  induction fuel with
  | zero => intro fuel2 a v _ hd; simp [climbLeft] at hd
  | succ f ih =>
    intro fuel2 a v hle hd
    cases fuel2 with
    | zero => omega
    | succ f2 =>
      simp only [climbLeft, bind] at hd ⊢
      cases hg : hget h a with
      | none => rw [hg] at hd; simp at hd
      | some n =>
        rw [hg] at hd
        simp only [Option.some_bind] at hd ⊢
        cases hp : n.parent with
        | none => rw [hp] at hd; exact hd
        | some p =>
          rw [hp] at hd
          simp only [bind] at hd ⊢
          cases hgp : hget h p with
          | none => rw [hgp] at hd; simp at hd
          | some pn =>
            rw [hgp] at hd
            simp only [Option.some_bind] at hd ⊢
            by_cases hr : (pn.right == some a) = true
            · rw [if_pos hr] at hd ⊢
              exact ih f2 p v (by omega) hd
            · rw [if_neg hr] at hd ⊢
              exact hd

theorem inorderFrom_mono (h : Heap beta) :
    ∀ fuel fuel2 cur v, fuel ≤ fuel2 → inorderFrom h cur fuel = some v →
      inorderFrom h cur fuel2 = some v := by
  intro fuel
  induction fuel with
  | zero =>
    intro fuel2 cur v _ hd
    cases cur with
    | none => cases fuel2 <;> simpa [inorderFrom] using hd
    | some a => simp [inorderFrom] at hd
  | succ f ih =>
    intro fuel2 cur v hle hd
    cases cur with
    | none => cases fuel2 <;> simpa [inorderFrom] using hd
    | some a =>
      cases fuel2 with
      | zero => omega
      | succ f2 =>
        simp only [inorderFrom, bind] at hd ⊢
        cases hg : hget h a with
        | none => rw [hg] at hd; simp at hd
        | some n =>
          rw [hg] at hd
          simp only [Option.some_bind] at hd ⊢
          cases hsucc : inorderSucc h a (h.length + 1) with
          | none => rw [hsucc] at hd; simp at hd
          | some nxt =>
            rw [hsucc] at hd
            simp only [Option.some_bind] at hd ⊢
            cases hrest : inorderFrom h nxt f with
            | none => rw [hrest] at hd; simp at hd
            | some rest =>
              rw [hrest] at hd
              rw [ih f2 nxt rest (by omega) hrest]
              exact hd

theorem reprAt_node_elim (h : Heap beta) (p : Option Nat) (a : Nat) (l : ATree)
    (x : Int) (r : ATree) (hr : reprAt h p (.node a l x r) = true) :
    ∃ n, hget h a = some n ∧ n.item = x ∧ n.parent = p ∧ n.left = l.rootAddr ∧
      n.right = r.rootAddr ∧ reprAt h (some a) l = true ∧ reprAt h (some a) r = true := by
  unfold reprAt at hr
  cases hg : hget h a with
  | none => rw [hg] at hr; simp at hr
  | some n =>
    rw [hg] at hr
    simp only [Bool.and_eq_true, beq_iff_eq] at hr
    exact ⟨n, rfl, hr.1.1.1.1.1, hr.1.1.1.1.2, hr.1.1.1.2, hr.1.1.2, hr.1.2, hr.2⟩

theorem nodup_node_elim (a : Nat) (l : ATree) (x : Int) (r : ATree)
    (hnd : (ATree.node a l x r).addrs.Nodup) :
    l.addrs.Nodup ∧ r.addrs.Nodup ∧ a ∉ l.addrs ∧ a ∉ r.addrs ∧
      ∀ b ∈ l.addrs, b ∉ r.addrs := by
  simp only [ATree.addrs, List.nodup_cons, List.nodup_append, List.mem_append] at hnd
  refine ⟨hnd.2.1, hnd.2.2.1, fun hm => hnd.1 (Or.inl hm), fun hm => hnd.1 (Or.inr hm), ?_⟩
  intro b hb
  exact hnd.2.2.2 hb

theorem reprAt_live (h : Heap beta) :
    ∀ t p, reprAt h p t = true → ∀ b ∈ t.addrs, (hget h b).isSome = true := by
  intro t
  induction t with
  | leaf => intro p _ b hb; simp [ATree.addrs] at hb
  | node a l x r ihl ihr =>
    intro p hr b hb
    obtain ⟨n, hg, _, _, _, _, hl2, hr2⟩ := reprAt_node_elim h p a l x r hr
    simp only [ATree.addrs, List.mem_cons, List.mem_append] at hb
    rcases hb with hb | hb | hb
    · rw [hb, hg]; rfl
    · exact ihl (some a) hl2 b hb
    · exact ihr (some a) hr2 b hb

theorem size_eq_addrs_length : ∀ t : ATree, t.size = t.addrs.length := by
  intro t
  induction t with
  | leaf => rfl
  | node a l x r ihl ihr =>
    simp [ATree.size, ATree.addrs, ihl, ihr]

theorem mem_keys_of_live (h : Heap beta) (b : Nat) (hb : (hget h b).isSome = true) :
    b ∈ h.map Prod.fst := by
  simp only [hget, Option.isSome_map] at hb
  cases hf : h.find? (fun p => p.1 == b) with
  | none => rw [hf] at hb; simp at hb
  | some q =>
    have hmem := List.mem_of_find?_eq_some hf
    have hpred := List.find?_some (p := fun p : Nat × BNode beta => p.1 == b) hf
    have : q.1 = b := by simpa using hpred
    rw [← this]
    exact List.mem_map_of_mem Prod.fst hmem

theorem size_le_heap (h : Heap beta) (t : ATree) (p : Option Nat)
    (hr : reprAt h p t = true) (hnd : t.addrs.Nodup) : t.size ≤ h.length := by
  rw [size_eq_addrs_length]
  have hsub : t.addrs.toFinset ⊆ (h.map Prod.fst).toFinset := by
    intro b hb
    simp only [List.mem_toFinset] at hb ⊢
    exact mem_keys_of_live h b (reprAt_live h t p hr b hb)
  calc t.addrs.length = t.addrs.toFinset.card := (List.toFinset_card_of_nodup hnd).symm
    _ ≤ (h.map Prod.fst).toFinset.card := Finset.card_le_card hsub
    _ ≤ (h.map Prod.fst).length := List.toFinset_card_le _
    _ = h.length := List.length_map _ _

theorem descLeft_lmost (h : Heap beta) :
    ∀ t p a, reprAt h p t = true → t.rootAddr = some a →
      ∀ fuel, t.size + 1 ≤ fuel → ∃ lm, t.lmost = some lm ∧ descLeft h a fuel = some lm := by
  intro t
  induction t with
  | leaf => intro p a hrep hroot; simp [ATree.rootAddr] at hroot
  | node a0 l x r ihl ihr =>
    intro p a hrep hroot fuel hfuel
    have ha : a = a0 := by simpa [ATree.rootAddr] using hroot.symm
    subst ha
    obtain ⟨n, hg, _, _, hnl, _, hl2, _⟩ := reprAt_node_elim h p a l x r hrep
    cases fuel with
    | zero => omega
    | succ f =>
      cases l with
      | leaf =>
        simp only [ATree.rootAddr] at hnl
        simp only [descLeft, bind, hg, Option.some_bind, hnl]
        exact ⟨a, by simp [ATree.lmost], rfl⟩
      | node la ll lx lr =>
        simp only [ATree.rootAddr] at hnl
        obtain ⟨lm, hlm, hdesc⟩ := ihl (some a) la hl2 rfl f
          (by simp [ATree.size] at hfuel ⊢; omega)
        refine ⟨lm, ?_, ?_⟩
        · simp only [ATree.lmost] at hlm ⊢
          rw [hlm]
        · simp only [descLeft, bind, hg, Option.some_bind, hnl]
          exact hdesc

theorem rootAddr_mem_addrs : ∀ (t : ATree) (b : Nat), t.rootAddr = some b → b ∈ t.addrs := by
  intro t b hb
  cases t with
  | leaf => simp [ATree.rootAddr] at hb
  | node a l x r =>
    have : b = a := by simpa [ATree.rootAddr] using hb.symm
    simp [this, ATree.addrs]

theorem inorderFrom_walk (h : Heap beta) :
    ∀ t p a exitPtr K fuelK,
      reprAt h p t = true → t.addrs.Nodup → t.rootAddr = some a →
      (∀ fuel, h.length + 1 - t.size ≤ fuel → climbLeft h a fuel = some exitPtr) →
      inorderFrom h exitPtr fuelK = some K →
      ∃ lm, t.lmost = some lm ∧
        inorderFrom h (some lm) (t.size + fuelK) = some (t.items ++ K) := by
  intro t
  induction t with
  | leaf => intro p a _ _ _ _ _ hroot; simp [ATree.rootAddr] at hroot
  | node a0 l x r ihl ihr =>
    intro p a exitPtr K fuelK hrep hnd hroot hcont hIF
    have ha : a = a0 := by simpa [ATree.rootAddr] using hroot.symm
    subst ha
    obtain ⟨n, hg, hitem, hpar, hnl, hnr, hlrep, hrrep⟩ := reprAt_node_elim h p a l x r hrep
    obtain ⟨hndl, hndr, hal, har, hdisj⟩ := nodup_node_elim a l x r hnd
    have hszl := size_le_heap h l (some a) hlrep hndl
    have hszr := size_le_heap h r (some a) hrrep hndr
    have hmid : inorderFrom h (some a) (r.size + fuelK + 1)
        = some (x :: (r.items ++ K)) := by
      cases r with
      | leaf =>
        have hnone : n.right = none := by simpa [ATree.rootAddr] using hnr
        have hclimb : climbLeft h a (h.length + 1) = some exitPtr :=
          hcont (h.length + 1) (by omega)
        have hsucc : inorderSucc h a (h.length + 1) = some exitPtr := by
          simp only [inorderSucc, bind, hg, Option.some_bind, hnone, hclimb]
        simp only [ATree.size, ATree.items, List.nil_append, Nat.zero_add]
        simp only [inorderFrom, bind, hg, Option.some_bind, hsucc, hIF, hitem]
        rfl
      | node ra rl rx rr =>
        have hnra : n.right = some ra := by simpa [ATree.rootAddr] using hnr
        obtain ⟨rn, hgr, _, hrpar, _, _, _, _⟩ := reprAt_node_elim h (some a) ra rl rx rr hrrep
        have hcontR : ∀ fuel, h.length + 1 - (ATree.node ra rl rx rr).size ≤ fuel →
            climbLeft h ra fuel = some exitPtr := by
          intro fuel hf
          have h1 : 1 ≤ fuel := by omega
          obtain ⟨f, rfl⟩ : ∃ f, fuel = f + 1 := ⟨fuel - 1, by omega⟩
          simp only [climbLeft, bind, hgr, Option.some_bind, hrpar, hg]
          rw [if_pos (by simp [hnra])]
          refine hcont f ?_
          have e1 : (ATree.node a l x (ATree.node ra rl rx rr)).size
              = l.size + (ATree.node ra rl rx rr).size + 1 := rfl
          omega
        obtain ⟨lmR, hlmR, hIFr⟩ := ihr (some a) ra exitPtr K fuelK hrrep hndr rfl hcontR hIF
        obtain ⟨lmR2, hlmR2, hdesc⟩ := descLeft_lmost h (ATree.node ra rl rx rr) (some a) ra
          hrrep rfl (h.length + 1) (by omega)
        have hq : lmR2 = lmR := by
          rw [hlmR] at hlmR2
          exact (Option.some_inj.mp hlmR2).symm
        have hsucc2 : inorderSucc h a (h.length + 1) = some (some lmR) := by
          simp only [inorderSucc, bind, hg, Option.some_bind, hnra, hdesc, hq,
            Option.map_some']
        simp only [inorderFrom, bind, hg, Option.some_bind, hsucc2, hIFr, hitem]
        rfl
    cases l with
    | leaf =>
      refine ⟨a, by simp [ATree.lmost], ?_⟩
      have harith : (ATree.node a ATree.leaf x r).size + fuelK = r.size + fuelK + 1 := by
        have e1 : (ATree.node a ATree.leaf x r).size = ATree.leaf.size + r.size + 1 := rfl
        have e2 : ATree.leaf.size = 0 := rfl
        omega
      rw [harith, hmid]
      simp [ATree.items]
    | node la ll lx lr =>
      have hcontL : ∀ fuel, h.length + 1 - (ATree.node la ll lx lr).size ≤ fuel →
          climbLeft h la fuel = some (some a) := by
        intro fuel hf
        have h1 : 1 ≤ fuel := by omega
        obtain ⟨f, rfl⟩ : ∃ f, fuel = f + 1 := ⟨fuel - 1, by omega⟩
        obtain ⟨ln2, hgl, _, hlpar, _, _, _, _⟩ := reprAt_node_elim h (some a) la ll lx lr hlrep
        have hne : ¬ (n.right == some la) = true := by
          simp only [beq_iff_eq, hnr]
          intro hc
          exact (hdisj la (by simp [ATree.addrs])) (rootAddr_mem_addrs r la hc)
        simp only [climbLeft, bind, hgl, Option.some_bind, hlpar, hg]
        rw [if_neg hne]
      obtain ⟨lmL, hlmL, hIFl⟩ := ihl (some a) la (some a) (x :: (r.items ++ K))
        (r.size + fuelK + 1) hlrep hndl rfl hcontL hmid
      refine ⟨lmL, ?_, ?_⟩
      · have e : (ATree.node a (ATree.node la ll lx lr) x r).lmost
            = match (ATree.node la ll lx lr).lmost with
              | some m => some m
              | none => some a := rfl
        rw [e, hlmL]
      · have harith : (ATree.node a (ATree.node la ll lx lr) x r).size + fuelK
            = (ATree.node la ll lx lr).size + (r.size + fuelK + 1) := by
          have e1 : (ATree.node a (ATree.node la ll lx lr) x r).size
              = (ATree.node la ll lx lr).size + r.size + 1 := rfl
          omega
        rw [harith, hIFl]
        simp [ATree.items]

theorem inorderSeq_repr (h : Heap beta) (t : ATree)
    (hrep : reprAt h none t = true) (hnd : t.addrs.Nodup) :
    inorderSeq h t.rootAddr = some t.items := by
  cases t with
  | leaf => rfl
  | node a l x r =>
    obtain ⟨n, hg, _, hpar, _, _, _, _⟩ := reprAt_node_elim h none a l x r hrep
    have hsz := size_le_heap h (ATree.node a l x r) none hrep hnd
    have hcont : ∀ fuel, h.length + 1 - (ATree.node a l x r).size ≤ fuel →
        climbLeft h a fuel = some none := by
      intro fuel hf
      have h1 : 1 ≤ fuel := by omega
      obtain ⟨f, rfl⟩ : ∃ f, fuel = f + 1 := ⟨fuel - 1, by omega⟩
      simp only [climbLeft, bind, hg, Option.some_bind, hpar]
    have hIF : inorderFrom h none (h.length + 1 - (ATree.node a l x r).size) = some [] := by
      cases h.length + 1 - (ATree.node a l x r).size <;> rfl
    obtain ⟨lm, hlm, hwalk⟩ := inorderFrom_walk h (ATree.node a l x r) none a none []
      (h.length + 1 - (ATree.node a l x r).size) hrep hnd rfl hcont hIF
    have harith : (ATree.node a l x r).size + (h.length + 1 - (ATree.node a l x r).size)
        = h.length + 1 := by omega
    rw [harith] at hwalk
    obtain ⟨lm2, hlm2, hdesc⟩ := descLeft_lmost h (ATree.node a l x r) none a hrep rfl
      (h.length + 1) (by omega)
    have hq : lm2 = lm := by
      rw [hlm] at hlm2
      exact (Option.some_inj.mp hlm2).symm
    simp only [inorderSeq, ATree.rootAddr, beginPtr, bind, hdesc, hq, Option.map_some',
      Option.some_bind]
    rw [hwalk]
    simp

theorem allB_mem (p : Int → Bool) : ∀ t : ATree, t.allB p = true →
    ∀ y ∈ t.items, p y = true := by
  intro t
  induction t with
  | leaf => intro _ y hy; simp [ATree.items] at hy
  | node a l x r ihl ihr =>
    intro hall y hy
    simp only [ATree.allB, Bool.and_eq_true] at hall
    simp only [ATree.items, List.mem_append, List.mem_cons] at hy
    rcases hy with hy | hy | hy
    · exact ihl hall.1.2 y hy
    · rw [hy]; exact hall.1.1
    · exact ihr hall.2 y hy

theorem strictAsc_iff_chain : ∀ xs : List Int,
    strictAsc xs = true ↔ List.Chain' (fun a b : Int => a < b) xs
  | [] => by simp [strictAsc]
  | [x] => by simp [strictAsc]
  | x :: y :: rest => by
    simp only [strictAsc, Bool.and_eq_true, decide_eq_true_eq, List.chain'_cons]
    exact and_congr Iff.rfl (strictAsc_iff_chain (y :: rest))

theorem isBST_strictAsc : ∀ t : ATree, t.isBST = true → strictAsc t.items = true := by
  intro t
  induction t with
  | leaf => intro _; rfl
  | node a l x r ihl ihr =>
    intro hb
    simp only [ATree.isBST, Bool.and_eq_true] at hb
    obtain ⟨⟨⟨hls, hrs⟩, hlb⟩, hrb⟩ := hb
    rw [strictAsc_iff_chain]
    simp only [ATree.items]
    rw [List.chain'_append]
    refine ⟨?_, ?_, ?_⟩
    · rw [← strictAsc_iff_chain]; exact ihl hlb
    · rw [List.chain'_cons']
      refine ⟨?_, ?_⟩
      · intro b hb2
        have hbmem : b ∈ r.items := List.mem_of_mem_head? hb2
        have := allB_mem _ r hrs b hbmem
        simpa using this
      · rw [← strictAsc_iff_chain]; exact ihr hrb
    · intro xe hxe ye hye
      have hxm : xe ∈ l.items := List.mem_of_mem_getLast? hxe
      have hx := allB_mem _ l hls xe hxm
      have hyx : x = ye := by simpa using hye
      rw [← hyx]
      simpa using hx

/-- C5: for every valid tree (red-black or AVL) — a heap whose live nodes
form a well-wired binary search tree — the full inorder iteration from
begin() to end() terminates and yields exactly the stored items (the
tree's complete inorder listing, no node skipped) in strictly ascending
order. -/
theorem inorder_yields_ascending (sr : RBState) (sa : AVLState) (tr ta : ATree)
    (hrrep : reprAt sr.heap none tr = true) (hrroot : sr.root = tr.rootAddr)
    (hrnd : tr.addrs.Nodup) (hrbst : tr.isBST = true)
    (harep : reprAt sa.heap none ta = true) (haroot : sa.root = ta.rootAddr)
    (hand : ta.addrs.Nodup) (habst : ta.isBST = true) :
    (rbInorder sr = some tr.items ∧ strictAsc tr.items = true) ∧
    (avlInorder sa = some ta.items ∧ strictAsc ta.items = true) := by
  refine ⟨⟨?_, isBST_strictAsc tr hrbst⟩, ⟨?_, isBST_strictAsc ta habst⟩⟩
  · show inorderSeq sr.heap sr.root = some tr.items
    rw [hrroot]
    exact inorderSeq_repr sr.heap tr hrrep hrnd
  · show inorderSeq sa.heap sa.root = some ta.items
    rw [haroot]
    exact inorderSeq_repr sa.heap ta harep hand

/-- C5 witness: the theorem applied to concrete three-node trees. -/
theorem inorder_yields_ascending_witness :
    (rbInorder rbThreeState = some threeATree.items ∧
      strictAsc threeATree.items = true) ∧
    (avlInorder avlThreeState = some threeATree.items ∧
      strictAsc threeATree.items = true) :=
  inorder_yields_ascending rbThreeState avlThreeState threeATree threeATree
    (by decide) (by decide) (by decide) (by decide)
    (by decide) (by decide) (by decide) (by decide)

theorem hget_cons (q : Nat × BNode beta) (t : Heap beta) (b : Nat) :
    hget (q :: t) b = if (q.1 == b) = true then some q.2 else hget t b := by
  by_cases hqb : (q.1 == b) = true
  · rw [if_pos hqb]
    simp only [hget]
    rw [List.find?_cons_of_pos (p := fun z : Nat × BNode beta => z.1 == b) _ hqb]
    rfl
  · rw [if_neg hqb]
    simp only [hget]
    rw [List.find?_cons_of_neg (p := fun z : Nat × BNode beta => z.1 == b) _ (by simpa using hqb)]

theorem hget_hdel_self (h : Heap beta) (a : Nat) : hget (hdel h a) a = none := by
  simp only [hget, hdel, Option.map_eq_none']
  rw [List.find?_eq_none]
  intro p hp
  simp only [List.mem_filter, bne_iff_ne, ne_eq] at hp
  simpa using hp.2

theorem hget_hdel_ne (h : Heap beta) (a b : Nat) (hne : b ≠ a) :
    hget (hdel h a) b = hget h b := by
  induction h with
  | nil => rfl
  | cons q t ih =>
    simp only [hdel, List.filter_cons] at ih ⊢
    by_cases hq : (q.1 != a) = true
    · rw [if_pos hq, hget_cons, hget_cons, ih]
    · rw [if_neg hq]
      have hqa : q.1 = a := by simpa using hq
      have h2 : (q.1 == b) = false := by
        simp only [hqa, beq_eq_false_iff_ne, ne_eq]
        exact fun e => hne e.symm
      rw [hget_cons, h2]
      rw [if_neg Bool.false_ne_true]
      exact ih

theorem hget_hdel_none (h : Heap beta) (a b : Nat) (hn : hget h b = none) :
    hget (hdel h a) b = none := by
  by_cases hba : b = a
  · rw [hba]; exact hget_hdel_self h a
  · rw [hget_hdel_ne h a b hba]; exact hn

theorem removeList_cons (h : Heap beta) (s : Nat) (S : List Nat) :
    removeList h (s :: S) = removeList (hdel h s) S := rfl

theorem removeList_append (h : Heap beta) (S1 S2 : List Nat) :
    removeList h (S1 ++ S2) = removeList (removeList h S1) S2 := by
  simp [removeList, List.foldl_append]

theorem hget_removeList_not_mem (b : Nat) :
    ∀ (S : List Nat) (h : Heap beta), b ∉ S → hget (removeList h S) b = hget h b := by
  intro S
  induction S with
  | nil => intro h _; rfl
  | cons s S ih =>
    intro h hb
    simp only [List.mem_cons, not_or] at hb
    rw [removeList_cons, ih _ hb.2]
    exact hget_hdel_ne h s b hb.1

theorem hget_removeList_none (b : Nat) :
    ∀ (S : List Nat) (h : Heap beta), hget h b = none → hget (removeList h S) b = none := by
  intro S
  induction S with
  | nil => intro h hn; exact hn
  | cons s S ih => intro h hn; exact ih _ (hget_hdel_none h s b hn)

theorem hget_removeList_mem (b : Nat) :
    ∀ (S : List Nat) (h : Heap beta), b ∈ S → hget (removeList h S) b = none := by
  intro S
  induction S with
  | nil => intro h hb; simp at hb
  | cons s S ih =>
    intro h hb
    by_cases hbs : b ∈ S
    · exact ih _ hbs
    · have hb2 : b = s := by
        simp only [List.mem_cons] at hb
        tauto
      subst hb2
      rw [removeList_cons]
      exact hget_removeList_none b S _ (hget_hdel_self h b)

theorem hdel_comm (h : Heap beta) (a b : Nat) :
    hdel (hdel h a) b = hdel (hdel h b) a := by
  simp only [hdel, List.filter_filter]
  congr 1
  funext p
  rw [Bool.and_comm]

theorem hdel_removeList (a : Nat) :
    ∀ (S : List Nat) (h : Heap beta),
      hdel (removeList h S) a = removeList (hdel h a) S := by
  intro S
  induction S with
  | nil => intro h; rfl
  | cons s S ih =>
    intro h
    rw [removeList_cons, removeList_cons, ih, hdel_comm]

theorem reprAt_agree (h h2 : Heap beta) :
    ∀ t p, (∀ b ∈ t.addrs, hget h2 b = hget h b) → reprAt h2 p t = reprAt h p t := by
  intro t
  induction t with
  | leaf => intro p _; rfl
  | node a l x r ihl ihr =>
    intro p hag
    have hga : hget h2 a = hget h a := hag a (by simp [ATree.addrs])
    unfold reprAt
    rw [hga]
    cases hget h a with
    | none => rfl
    | some n =>
      rw [ihl (some a) (fun b hb => hag b (by simp [ATree.addrs]; exact Or.inr (Or.inl hb))),
          ihr (some a) (fun b hb => hag b (by simp [ATree.addrs]; exact Or.inr (Or.inr hb)))]

theorem phaseAfter_agree (h h2 : Heap beta) (p : Option Nat) (a : Nat)
    (hag : ∀ pp, p = some pp → hget h2 pp = hget h pp) :
    phaseAfter h2 p a = phaseAfter h p a := by
  cases p with
  | none => rfl
  | some pp => simp only [phaseAfter, hag pp rfl]

theorem size_lt_heap_of_extra (h : Heap beta) (t : ATree) (p : Option Nat) (b : Nat)
    (hr : reprAt h p t = true) (hnd : t.addrs.Nodup) (hb : (hget h b).isSome = true)
    (hbn : b ∉ t.addrs) : t.size + 1 ≤ h.length := by
  have hnd2 : (b :: t.addrs).Nodup := List.nodup_cons.mpr ⟨hbn, hnd⟩
  have hsub : (b :: t.addrs).toFinset ⊆ (h.map Prod.fst).toFinset := by
    intro c hc
    simp only [List.mem_toFinset, List.mem_cons] at hc ⊢
    rcases hc with hc | hc
    · subst hc; exact mem_keys_of_live h c hb
    · exact mem_keys_of_live h c (reprAt_live h t p hr c hc)
  have hlen : (b :: t.addrs).length ≤ h.length := by
    calc (b :: t.addrs).length = (b :: t.addrs).toFinset.card :=
          (List.toFinset_card_of_nodup hnd2).symm
      _ ≤ (h.map Prod.fst).toFinset.card := Finset.card_le_card hsub
      _ ≤ (h.map Prod.fst).length := List.toFinset_card_le _
      _ = h.length := List.length_map _ _
  rw [size_eq_addrs_length]
  simpa using hlen

theorem poIter_cur_ne_end (a : Nat) (p : Option Nat) (ph : Bool) :
    (({ current := some a, next := p, downwardPhase := ph } : PoIter) == poEndIter)
      = false := by
  simp [poEndIter]

theorem poSeqFrom_end (h : Heap beta) (fuel : Nat) (hf : 1 ≤ fuel) :
    poSeqFrom h poEndIter fuel = some [] := by
  cases fuel with
  | zero => omega
  | succ f =>
    simp only [poSeqFrom]
    rw [if_pos (by simp)]

theorem clearLoop_end (h : Heap beta) (fuel : Nat) (hf : 1 ≤ fuel) :
    clearLoop h poEndIter fuel = some h := by
  cases fuel with
  | zero => omega
  | succ f =>
    simp only [clearLoop]
    rw [if_pos (by simp)]

theorem postItems_perm_items : ∀ t : ATree, t.postItems.Perm t.items := by
  intro t
  induction t with
  | leaf => exact List.Perm.refl _
  | node a l x r ihl ihr =>
    simp only [ATree.postItems, ATree.items]
    have h1 : l.postItems ++ r.postItems ++ [x] ≈ l.items ++ (r.items ++ [x]) := by
      rw [List.append_assoc]
      exact ihl.append (ihr.append_right [x])
    have h2 : r.items ++ [x] ≈ x :: r.items := List.perm_append_singleton x r.items
    exact h1.trans (h2.append_left l.items)

theorem poAdvanceLoop_visit (h : Heap beta) (a : Nat) (n : BNode beta) (phA : Bool)
    (hg : hget h a = some n) (hph : phaseAfter h n.parent a = some phA) :
    ∀ c2 fuel, 1 ≤ fuel →
      poAdvanceLoop h { current := c2, next := some a, downwardPhase := false } fuel
        = some { current := some a, next := n.parent, downwardPhase := phA } := by
  intro c2 fuel hf
  obtain ⟨f, rfl⟩ : ∃ f, fuel = f + 1 := ⟨fuel - 1, by omega⟩
  cases hp2 : n.parent with
  | none =>
    have hphv : phA = true := by
      simp only [phaseAfter, hp2] at hph
      simpa using hph.symm
    subst hphv
    simp [poAdvanceLoop, bind, hg, hp2]
  | some pp =>
    simp only [phaseAfter, hp2] at hph
    rw [Option.map_eq_some'] at hph
    obtain ⟨pn, hgp, hphv⟩ := hph
    subst hphv
    simp [poAdvanceLoop, bind, hg, hp2, hgp]

theorem poAdvanceLoop_down_noright (h : Heap beta) (a : Nat) (n : BNode beta)
    (hg : hget h a = some n) (hnr : n.right = none) (c2 : Option Nat) (fuel : Nat) :
    poAdvanceLoop h { current := c2, next := some a, downwardPhase := true } (fuel + 1)
      = poAdvanceLoop h { current := c2, next := some a, downwardPhase := false } fuel := by
  simp [poAdvanceLoop, bind, hg, hnr]

theorem poAdvanceLoop_down_right (h : Heap beta) (a ra lm : Nat) (n : BNode beta)
    (hg : hget h a = some n) (hnr : n.right = some ra)
    (hdesc : descLeft h ra (h.length + 1) = some lm) (c2 : Option Nat) (fuel : Nat) :
    poAdvanceLoop h { current := c2, next := some a, downwardPhase := true } (fuel + 1)
      = poAdvanceLoop h { current := c2, next := some lm, downwardPhase := true } fuel := by
  simp [poAdvanceLoop, bind, hg, hnr, hdesc]

theorem poWalk (h : Heap beta) :
    ∀ t p a phA K fuelK,
      reprAt h p t = true → t.addrs.Nodup → t.rootAddr = some a →
      phaseAfter h p a = some phA →
      (∃ st2, poAdvance h { current := some a, next := p, downwardPhase := phA }
          (h.length + 1) = some st2 ∧ poSeqFrom h st2 fuelK = some K) →
      ∀ c fuel, t.size + 1 ≤ fuel →
      ∃ lm stV, t.lmost = some lm ∧
        poAdvanceLoop h { current := c, next := some lm, downwardPhase := true } fuel
          = some stV ∧
        poSeqFrom h stV (t.size + fuelK) = some (t.postItems ++ K) := by
  intro t
  induction t with
  | leaf =>
    intro p a phA K fuelK _ _ hroot
    simp [ATree.rootAddr] at hroot
  | node a0 l x r ihl ihr =>
    intro p a phA K fuelK hrep hnd hroot hph hcont c fuel hfuel
    have ha : a = a0 := by simpa [ATree.rootAddr] using hroot.symm
    subst ha
    obtain ⟨n, hg, hitem, hpar, hnl, hnr, hlrep, hrrep⟩ := reprAt_node_elim h p a l x r hrep
    obtain ⟨hndl, hndr, hal, har, hdisj⟩ := nodup_node_elim a l x r hnd
    have hszr1 : r.size + 1 ≤ h.length :=
      size_lt_heap_of_extra h r (some a) a hrrep hndr (by rw [hg]; rfl) har
    have hnotend : ¬ (({ current := some a, next := p, downwardPhase := phA } : PoIter)
        == poEndIter) = true := by
      rw [poIter_cur_ne_end]
      exact Bool.false_ne_true
    have hVisitSeq : poSeqFrom h { current := some a, next := p, downwardPhase := phA }
        (fuelK + 1) = some (x :: K) := by
      obtain ⟨st2, hadv, hseq⟩ := hcont
      simp only [poSeqFrom]
      rw [if_neg hnotend]
      simp only [Option.some_bind, bind, hg, hadv, hseq, hitem]
      rfl
    have hphn : phaseAfter h n.parent a = some phA := by rw [hpar]; exact hph
    have hArrive : ∀ c2 fuel2, r.size + 2 ≤ fuel2 →
        ∃ stV, poAdvanceLoop h { current := c2, next := some a, downwardPhase := true }
            fuel2 = some stV ∧
          poSeqFrom h stV (r.size + 1 + fuelK) = some (r.postItems ++ (x :: K)) := by
      cases r with
      | leaf =>
        intro c2 fuel2 hf2
        obtain ⟨f, rfl⟩ : ∃ f, fuel2 = f + 1 + 1 := ⟨fuel2 - 2, by omega⟩
        have hnone : n.right = none := by simpa [ATree.rootAddr] using hnr
        refine ⟨{ current := some a, next := p, downwardPhase := phA }, ?_, ?_⟩
        · rw [poAdvanceLoop_down_noright h a n hg hnone c2 (f + 1)]
          rw [poAdvanceLoop_visit h a n phA hg hphn c2 (f + 1) (by omega), hpar]
        · have e3 : ATree.leaf.size + 1 + fuelK = fuelK + 1 := by
            have e0 : ATree.leaf.size = 0 := rfl
            omega
          rw [e3]
          simpa [ATree.postItems] using hVisitSeq
      | node ra rl rx rr =>
        intro c2 fuel2 hf2
        have hnra : n.right = some ra := by simpa [ATree.rootAddr] using hnr
        have hphR : phaseAfter h (some a) ra = some false := by
          simp only [phaseAfter, hg, Option.map_some']
          rw [if_pos (by simp [hnra])]
        have hcontR : ∃ st2,
            poAdvance h { current := some ra, next := some a, downwardPhase := false }
              (h.length + 1) = some st2 ∧
            poSeqFrom h st2 (fuelK + 1) = some (x :: K) := by
          refine ⟨{ current := some a, next := p, downwardPhase := phA }, ?_, hVisitSeq⟩
          simp only [poAdvance]
          rw [poAdvanceLoop_visit h a n phA hg hphn (some ra) (h.length + 1) (by omega),
            hpar]
        obtain ⟨lmr, stVr, hlmr, hloopR, hseqR⟩ := ihr (some a) ra false (x :: K)
          (fuelK + 1) hrrep hndr rfl hphR hcontR c2 (fuel2 - 1) (by omega)
        obtain ⟨lmr2, hlmr2, hdesc⟩ := descLeft_lmost h (ATree.node ra rl rx rr) (some a)
          ra hrrep rfl (h.length + 1) (by omega)
        have hq : lmr2 = lmr := by
          rw [hlmr] at hlmr2
          exact (Option.some_inj.mp hlmr2).symm
        refine ⟨stVr, ?_, ?_⟩
        · obtain ⟨f, rfl⟩ : ∃ f, fuel2 = f + 1 := ⟨fuel2 - 1, by omega⟩
          rw [poAdvanceLoop_down_right h a ra lmr n hg hnra (by rw [hdesc, hq]) c2 f]
          simpa using hloopR
        · have e3 : (ATree.node ra rl rx rr).size + 1 + fuelK
              = (ATree.node ra rl rx rr).size + (fuelK + 1) := by omega
          rw [e3]
          exact hseqR
    cases l with
    | leaf =>
      obtain ⟨stV, hloop, hseq⟩ := hArrive c fuel (by
        have e1 : (ATree.node a ATree.leaf x r).size = ATree.leaf.size + r.size + 1 := rfl
        have e0 : ATree.leaf.size = 0 := rfl
        omega)
      refine ⟨a, stV, by simp [ATree.lmost], hloop, ?_⟩
      have e4 : (ATree.node a ATree.leaf x r).size + fuelK = r.size + 1 + fuelK := by
        have e1 : (ATree.node a ATree.leaf x r).size = ATree.leaf.size + r.size + 1 := rfl
        have e0 : ATree.leaf.size = 0 := rfl
        omega
      rw [e4, hseq]
      simp [ATree.postItems]
    | node la ll lx lr =>
      have hne : (n.right == some la) = false := by
        rw [hnr]
        cases r with
        | leaf => simp [ATree.rootAddr]
        | node ra rl rx rr =>
          simp only [ATree.rootAddr, beq_eq_false_iff_ne, ne_eq, Option.some.injEq]
          intro he
          exact hdisj la (by simp [ATree.addrs]) (by rw [← he]; simp [ATree.addrs])
      have hphL : phaseAfter h (some a) la = some true := by
        simp only [phaseAfter, hg, Option.map_some']
        rw [if_neg (by simp [hne])]
      have hcontL : ∃ st2,
          poAdvance h { current := some la, next := some a, downwardPhase := true }
            (h.length + 1) = some st2 ∧
          poSeqFrom h st2 (r.size + 1 + fuelK) = some (r.postItems ++ (x :: K)) := by
        obtain ⟨stV, hloop, hseq⟩ := hArrive (some la) (h.length + 1) (by omega)
        exact ⟨stV, hloop, hseq⟩
      obtain ⟨lml, stVl, hlml, hloopL, hseqL⟩ := ihl (some a) la true
        (r.postItems ++ (x :: K)) (r.size + 1 + fuelK) hlrep hndl rfl hphL hcontL c fuel
        (by
          have e1 : (ATree.node a (ATree.node la ll lx lr) x r).size
              = (ATree.node la ll lx lr).size + r.size + 1 := rfl
          omega)
      refine ⟨lml, stVl, ?_, hloopL, ?_⟩
      · have e : (ATree.node a (ATree.node la ll lx lr) x r).lmost
            = match (ATree.node la ll lx lr).lmost with
              | some m => some m
              | none => some a := rfl
        rw [e, hlml]
      · have e5 : (ATree.node a (ATree.node la ll lx lr) x r).size + fuelK
            = (ATree.node la ll lx lr).size + (r.size + 1 + fuelK) := by
          have e1 : (ATree.node a (ATree.node la ll lx lr) x r).size
              = (ATree.node la ll lx lr).size + r.size + 1 := rfl
          omega
        rw [e5, hseqL]
        simp [ATree.postItems]

theorem poSeq_repr (h : Heap beta) (t : ATree)
    (hrep : reprAt h none t = true) (hnd : t.addrs.Nodup) :
    poSeq h t.rootAddr = some t.postItems := by
  cases t with
  | leaf =>
    show poSeq h none = some ATree.leaf.postItems
    simp only [poSeq, poBegin, bind, Option.some_bind]
    exact poSeqFrom_end h (h.length + 1) (by omega)
  | node a l x r =>
    have hsz := size_le_heap h (ATree.node a l x r) none hrep hnd
    have hcont : ∃ st2,
        poAdvance h { current := some a, next := none, downwardPhase := true }
          (h.length + 1) = some st2 ∧
        poSeqFrom h st2 (h.length + 1 - (ATree.node a l x r).size) = some [] := by
      exact ⟨poEndIter, rfl, poSeqFrom_end h _ (by omega)⟩
    obtain ⟨lm, stV, hlm, hloop, hseq⟩ := poWalk h (ATree.node a l x r) none a true []
      (h.length + 1 - (ATree.node a l x r).size) hrep hnd rfl rfl hcont none
      (h.length + 1) (by omega)
    obtain ⟨lm2, hlm2, hdesc⟩ := descLeft_lmost h (ATree.node a l x r) none a hrep rfl
      (h.length + 1) (by omega)
    have hq : lm2 = lm := by
      rw [hlm] at hlm2
      exact (Option.some_inj.mp hlm2).symm
    have harith : (ATree.node a l x r).size + (h.length + 1 - (ATree.node a l x r).size)
        = h.length + 1 := by omega
    rw [harith] at hseq
    show poSeq h (some a) = _
    simp only [poSeq, poBegin, bind, hdesc, hq, Option.map_some', Option.some_bind,
      poAdvance, hloop, hseq]
    simp

theorem clearWalk :
    ∀ (t : ATree) (h : Heap beta) (p : Option Nat) (a : Nat) (phA : Bool) (fuelK : Nat)
      (hFin : Heap beta),
      reprAt h p t = true → t.addrs.Nodup → t.rootAddr = some a →
      (∀ pp, p = some pp → pp ∉ t.addrs) →
      phaseAfter h p a = some phA →
      (∃ st2, poAdvance (removeList h t.addrs)
          { current := some a, next := p, downwardPhase := phA }
          ((removeList h t.addrs).length + 1) = some st2 ∧
        clearLoop (removeList h t.addrs) st2 fuelK = some hFin) →
      ∀ c fuel, t.size + 1 ≤ fuel →
      ∃ lm stV, t.lmost = some lm ∧
        poAdvanceLoop h { current := c, next := some lm, downwardPhase := true } fuel
          = some stV ∧
        clearLoop h stV (t.size + fuelK) = some hFin := by
  intro t
  induction t with
  | leaf =>
    intro h p a phA fuelK hFin _ _ hroot
    simp [ATree.rootAddr] at hroot
  | node a0 l x r ihl ihr =>
    intro h p a phA fuelK hFin hrep hnd hroot hpnotin hph hcont c fuel hfuel
    have ha : a = a0 := by simpa [ATree.rootAddr] using hroot.symm
    subst ha
    obtain ⟨n, hg, hitem, hpar, hnl, hnr, hlrep, hrrep⟩ := reprAt_node_elim h p a l x r hrep
    obtain ⟨hndl, hndr, hal, har, hdisj⟩ := nodup_node_elim a l x r hnd
    have hgl_a : hget (removeList h l.addrs) a = some n := by
      rw [hget_removeList_not_mem a l.addrs h hal]
      exact hg
    have hgV_a : hget (removeList h (l.addrs ++ r.addrs)) a = some n := by
      rw [hget_removeList_not_mem a (l.addrs ++ r.addrs) h
        (by simp only [List.mem_append, not_or]; exact ⟨hal, har⟩)]
      exact hg
    have hrrepL : reprAt (removeList h l.addrs) (some a) r = true := by
      rw [reprAt_agree h (removeList h l.addrs) r (some a)
        (fun b hb => hget_removeList_not_mem b l.addrs h (fun hmem => hdisj b hmem hb))]
      exact hrrep
    have hppV : ∀ pp, p = some pp →
        hget (removeList h (l.addrs ++ r.addrs)) pp = hget h pp := by
      intro pp hpp
      refine hget_removeList_not_mem pp (l.addrs ++ r.addrs) h ?_
      have := hpnotin pp hpp
      simp only [ATree.addrs, List.mem_cons, not_or] at this
      exact this.2
    have hphV : phaseAfter (removeList h (l.addrs ++ r.addrs)) p a = some phA := by
      rw [phaseAfter_agree h (removeList h (l.addrs ++ r.addrs)) p a hppV]
      exact hph
    have hppL : ∀ pp, p = some pp →
        hget (removeList h l.addrs) pp = hget h pp := by
      intro pp hpp
      refine hget_removeList_not_mem pp l.addrs h ?_
      have := hpnotin pp hpp
      simp only [ATree.addrs, List.mem_cons, List.mem_append, not_or] at this
      exact this.2.1
    have hphLHeap : phaseAfter (removeList h l.addrs) p a = some phA := by
      rw [phaseAfter_agree h (removeList h l.addrs) p a hppL]
      exact hph
    have hszr1L : r.size + 1 ≤ (removeList h l.addrs).length :=
      size_lt_heap_of_extra (removeList h l.addrs) r (some a) a hrrepL hndr
        (by rw [hgl_a]; rfl) har
    have hnotend : ¬ (({ current := some a, next := p, downwardPhase := phA } : PoIter)
        == poEndIter) = true := by
      rw [poIter_cur_ne_end]
      exact Bool.false_ne_true
    have hVisitClear : clearLoop (removeList h (l.addrs ++ r.addrs))
        { current := some a, next := p, downwardPhase := phA } (fuelK + 1)
        = some hFin := by
      obtain ⟨st2, hadv, hclear⟩ := hcont
      have hdel_eq : hdel (removeList h (l.addrs ++ r.addrs)) a
          = removeList h (ATree.node a l x r).addrs := by
        rw [hdel_removeList]
        rfl
      simp only [clearLoop]
      rw [if_neg hnotend]
      simp only [hdel_eq, hadv, Option.some_bind, bind]
      exact hclear
    have hphnV : phaseAfter (removeList h (l.addrs ++ r.addrs)) n.parent a = some phA := by
      rw [hpar]
      exact hphV
    have hphnL : phaseAfter (removeList h l.addrs) n.parent a = some phA := by
      rw [hpar]
      exact hphLHeap
    have hArriveClear : ∀ c2 fuel2, r.size + 2 ≤ fuel2 →
        ∃ stV, poAdvanceLoop (removeList h l.addrs)
            { current := c2, next := some a, downwardPhase := true } fuel2 = some stV ∧
          clearLoop (removeList h l.addrs) stV (r.size + 1 + fuelK) = some hFin := by
      cases r with
      | leaf =>
        intro c2 fuel2 hf2
        obtain ⟨f, rfl⟩ : ∃ f, fuel2 = f + 1 + 1 := ⟨fuel2 - 2, by omega⟩
        have hnone : n.right = none := by simpa [ATree.rootAddr] using hnr
        refine ⟨{ current := some a, next := p, downwardPhase := phA }, ?_, ?_⟩
        · rw [poAdvanceLoop_down_noright (removeList h l.addrs) a n hgl_a hnone c2 (f + 1)]
          rw [poAdvanceLoop_visit (removeList h l.addrs) a n phA hgl_a hphnL c2 (f + 1)
            (by omega), hpar]
        · have e3 : ATree.leaf.size + 1 + fuelK = fuelK + 1 := by
            have e0 : ATree.leaf.size = 0 := rfl
            omega
          rw [e3]
          simpa [ATree.addrs] using hVisitClear
      | node ra rl rx rr =>
        intro c2 fuel2 hf2
        have hnra : n.right = some ra := by simpa [ATree.rootAddr] using hnr
        have hphR : phaseAfter (removeList h l.addrs) (some a) ra = some false := by
          simp only [phaseAfter, hgl_a, Option.map_some']
          rw [if_pos (by simp [hnra])]
        have hcontR : ∃ st2,
            poAdvance (removeList (removeList h l.addrs) (ATree.node ra rl rx rr).addrs)
              { current := some ra, next := some a, downwardPhase := false }
              ((removeList (removeList h l.addrs) (ATree.node ra rl rx rr).addrs).length
                + 1) = some st2 ∧
            clearLoop (removeList (removeList h l.addrs) (ATree.node ra rl rx rr).addrs)
              st2 (fuelK + 1) = some hFin := by
          rw [← removeList_append]
          refine ⟨{ current := some a, next := p, downwardPhase := phA }, ?_, hVisitClear⟩
          simp only [poAdvance]
          rw [poAdvanceLoop_visit (removeList h (l.addrs ++ (ATree.node ra rl rx rr).addrs))
            a n phA hgV_a hphnV (some ra) _ (by omega), hpar]
        obtain ⟨lmr, stVr, hlmr, hloopR, hseqR⟩ := ihr (removeList h l.addrs) (some a) ra
          false (fuelK + 1) hFin hrrepL hndr rfl
          (fun pp hpp => by rw [← Option.some_inj.mp hpp]; exact har) hphR hcontR c2
          (fuel2 - 1) (by omega)
        obtain ⟨lmr2, hlmr2, hdesc⟩ := descLeft_lmost (removeList h l.addrs)
          (ATree.node ra rl rx rr) (some a) ra hrrepL rfl
          ((removeList h l.addrs).length + 1) (by omega)
        have hq : lmr2 = lmr := by
          rw [hlmr] at hlmr2
          exact (Option.some_inj.mp hlmr2).symm
        refine ⟨stVr, ?_, ?_⟩
        · obtain ⟨f, rfl⟩ : ∃ f, fuel2 = f + 1 := ⟨fuel2 - 1, by omega⟩
          rw [poAdvanceLoop_down_right (removeList h l.addrs) a ra lmr n hgl_a hnra
            (by rw [hdesc, hq]) c2 f]
          simpa using hloopR
        · have e3 : (ATree.node ra rl rx rr).size + 1 + fuelK
              = (ATree.node ra rl rx rr).size + (fuelK + 1) := by omega
          rw [e3]
          exact hseqR
    cases l with
    | leaf =>
      obtain ⟨stV, hloop, hseq⟩ := hArriveClear c fuel (by
        have e1 : (ATree.node a ATree.leaf x r).size = ATree.leaf.size + r.size + 1 := rfl
        have e0 : ATree.leaf.size = 0 := rfl
        omega)
      refine ⟨a, stV, by simp [ATree.lmost], ?_, ?_⟩
      · exact hloop
      · have e4 : (ATree.node a ATree.leaf x r).size + fuelK = r.size + 1 + fuelK := by
          have e1 : (ATree.node a ATree.leaf x r).size = ATree.leaf.size + r.size + 1 := rfl
          have e0 : ATree.leaf.size = 0 := rfl
          omega
        rw [e4]
        exact hseq
    | node la ll lx lr =>
      have hne : (n.right == some la) = false := by
        rw [hnr]
        cases r with
        | leaf => simp [ATree.rootAddr]
        | node ra rl rx rr =>
          simp only [ATree.rootAddr, beq_eq_false_iff_ne, ne_eq, Option.some.injEq]
          intro he
          exact hdisj la (by simp [ATree.addrs]) (by rw [← he]; simp [ATree.addrs])
      have hphL : phaseAfter h (some a) la = some true := by
        simp only [phaseAfter, hg, Option.map_some']
        rw [if_neg (by simp [hne])]
      have hcontL : ∃ st2,
          poAdvance (removeList h (ATree.node la ll lx lr).addrs)
            { current := some la, next := some a, downwardPhase := true }
            ((removeList h (ATree.node la ll lx lr).addrs).length + 1) = some st2 ∧
          clearLoop (removeList h (ATree.node la ll lx lr).addrs) st2
            (r.size + 1 + fuelK) = some hFin := by
        obtain ⟨stV, hloop, hseq⟩ := hArriveClear (some la)
          ((removeList h (ATree.node la ll lx lr).addrs).length + 1) (by omega)
        exact ⟨stV, hloop, hseq⟩
      obtain ⟨lml, stVl, hlml, hloopL, hseqL⟩ := ihl h (some a) la true
        (r.size + 1 + fuelK) hFin hlrep hndl rfl
        (fun pp hpp => by rw [← Option.some_inj.mp hpp]; exact hal) hphL hcontL c fuel
        (by
          have e1 : (ATree.node a (ATree.node la ll lx lr) x r).size
              = (ATree.node la ll lx lr).size + r.size + 1 := rfl
          omega)
      refine ⟨lml, stVl, ?_, hloopL, ?_⟩
      · have e : (ATree.node a (ATree.node la ll lx lr) x r).lmost
            = match (ATree.node la ll lx lr).lmost with
              | some m => some m
              | none => some a := rfl
        rw [e, hlml]
      · have e5 : (ATree.node a (ATree.node la ll lx lr) x r).size + fuelK
            = (ATree.node la ll lx lr).size + (r.size + 1 + fuelK) := by
          have e1 : (ATree.node a (ATree.node la ll lx lr) x r).size
              = (ATree.node la ll lx lr).size + r.size + 1 := rfl
          omega
        rw [e5]
        exact hseqL

theorem stClear_correct (s : TState beta) (t : ATree)
    (hrep : reprAt s.heap none t = true) (hnd : t.addrs.Nodup)
    (hroot : s.root = t.rootAddr) :
    ∃ s2, stClear s = some s2 ∧ s2.root = none ∧
      s2.heap = removeList s.heap t.addrs := by
  cases t with
  | leaf =>
    have hroot2 : s.root = none := by simpa [ATree.rootAddr] using hroot
    refine ⟨{ heap := s.heap, root := none, nextAddr := s.nextAddr }, ?_, rfl, rfl⟩
    simp only [stClear, hroot2, poBegin, bind, Option.some_bind]
    have he : ({ current := none, next := none, downwardPhase := true } : PoIter)
        = poEndIter := rfl
    rw [he, clearLoop_end s.heap _ (by omega)]
    rfl
  | node a l x r =>
    have hroot2 : s.root = some a := by simpa [ATree.rootAddr] using hroot
    have hsz := size_le_heap s.heap (ATree.node a l x r) none hrep hnd
    have hcont : ∃ st2,
        poAdvance (removeList s.heap (ATree.node a l x r).addrs)
          { current := some a, next := none, downwardPhase := true }
          ((removeList s.heap (ATree.node a l x r).addrs).length + 1) = some st2 ∧
        clearLoop (removeList s.heap (ATree.node a l x r).addrs) st2
          (s.heap.length + 1 - (ATree.node a l x r).size)
          = some (removeList s.heap (ATree.node a l x r).addrs) := by
      exact ⟨poEndIter, rfl, clearLoop_end _ _ (by omega)⟩
    obtain ⟨lm, stV, hlm, hloop, hseq⟩ := clearWalk (ATree.node a l x r) s.heap none a
      true (s.heap.length + 1 - (ATree.node a l x r).size)
      (removeList s.heap (ATree.node a l x r).addrs) hrep hnd rfl
      (fun pp hpp => by simp at hpp) rfl hcont none (s.heap.length + 1) (by omega)
    obtain ⟨lm2, hlm2, hdesc⟩ := descLeft_lmost s.heap (ATree.node a l x r) none a hrep
      rfl (s.heap.length + 1) (by omega)
    have hq : lm2 = lm := by
      rw [hlm] at hlm2
      exact (Option.some_inj.mp hlm2).symm
    have harith : (ATree.node a l x r).size
        + (s.heap.length + 1 - (ATree.node a l x r).size) = s.heap.length + 1 := by omega
    rw [harith] at hseq
    refine ⟨⟨removeList s.heap (ATree.node a l x r).addrs, none, s.nextAddr⟩, ?_, rfl, rfl⟩
    simp only [stClear, hroot2, poBegin, bind, hdesc, hq, Option.map_some',
      Option.some_bind, poAdvance, hloop, hseq]
    rfl

/-- C7: postorder iteration over a well-formed tree terminates and yields
exactly the stored items, children before parents (the left subtree, then
the right subtree, then the node, recursively), and each item exactly once
(the postorder listing is a permutation of the inorder one).  The iterator
pre-fetches the next node before yielding the current one, so Clear() (also
run by the destructor), which deletes every visited node mid-walk, never
reads a freed node, traverses every node, and leaves the tree empty: it
succeeds (any read of a freed address would make the run return none),
frees every address of the tree, and nulls the root. -/
theorem postorder_once_and_clear_empties (s : TState beta) (t : ATree)
    (hrep : reprAt s.heap none t = true) (hnd : t.addrs.Nodup)
    (hroot : s.root = t.rootAddr) :
    (poSeq s.heap s.root = some t.postItems ∧ t.postItems.Perm t.items) ∧
    ∃ s2, stClear s = some s2 ∧ s2.root = none ∧
      ∀ b ∈ t.addrs, hget s2.heap b = none := by
  refine ⟨⟨?_, postItems_perm_items t⟩, ?_⟩
  · rw [hroot]
    exact poSeq_repr s.heap t hrep hnd
  · obtain ⟨s2, hc, hr, hh⟩ := stClear_correct s t hrep hnd hroot
    refine ⟨s2, hc, hr, fun b hb => ?_⟩
    rw [hh]
    exact hget_removeList_mem b t.addrs s.heap hb

/-- C7 witness: the theorem applied to a concrete three-node red-black
tree state. -/
theorem postorder_once_and_clear_empties_witness :
    (poSeq rbThreeState.heap rbThreeState.root = some threeATree.postItems ∧
      threeATree.postItems.Perm threeATree.items) ∧
    ∃ s2, stClear rbThreeState = some s2 ∧ s2.root = none ∧
      ∀ b ∈ threeATree.addrs, hget s2.heap b = none :=
  postorder_once_and_clear_empties rbThreeState threeATree (by decide) (by decide)
    (by decide)

theorem items_length : ∀ t : ATree, t.items.length = t.size := by
  intro t
  induction t with
  | leaf => rfl
  | node a l x r ihl ihr =>
    simp only [ATree.items, ATree.size, List.length_append, List.length_cons, ihl, ihr]
    omega

theorem strictAsc_iff_pairwise (l : List Int) :
    strictAsc l = true ↔ List.Pairwise (fun a b : Int => a < b) l :=
  (strictAsc_iff_chain l).trans List.chain'_iff_pairwise

theorem listInter_spec : ∀ xs ys : List Int, strictAsc xs = true → strictAsc ys = true →
    strictAsc (listInter xs ys) = true ∧
      (∀ z : Int, z ∈ listInter xs ys ↔ z ∈ xs ∧ z ∈ ys)
  | [], ys => by
    intro _ _
    refine ⟨?_, ?_⟩ <;> simp [listInter, strictAsc]
  | x :: xs, [] => by
    intro _ _
    refine ⟨?_, ?_⟩ <;> simp [listInter, strictAsc]
  | x :: xs, y :: ys => by
    intro hx hy
    rw [strictAsc_iff_pairwise, List.pairwise_cons] at hx hy
    obtain ⟨hxh, hxt⟩ := hx
    obtain ⟨hyh, hyt⟩ := hy
    have hxt2 : strictAsc xs = true := by rw [strictAsc_iff_pairwise]; exact hxt
    have hyt2 : strictAsc ys = true := by rw [strictAsc_iff_pairwise]; exact hyt
    by_cases he : (x == y) = true
    · have hxy : x = y := by simpa using he
      subst hxy
      obtain ⟨ihs, ihm⟩ := listInter_spec xs ys hxt2 hyt2
      have e : listInter (x :: xs) (x :: ys) = x :: listInter xs ys := by
        simp only [listInter]
        rw [if_pos (by simp)]
      constructor
      · rw [e, strictAsc_iff_pairwise, List.pairwise_cons]
        refine ⟨fun z hz => hxh z ((ihm z).mp hz).1, ?_⟩
        rw [← strictAsc_iff_pairwise]
        exact ihs
      · intro z
        rw [e]
        simp only [List.mem_cons, ihm]
        constructor
        · rintro (rfl | ⟨h1, h2⟩)
          · exact ⟨Or.inl rfl, Or.inl rfl⟩
          · exact ⟨Or.inr h1, Or.inr h2⟩
        · rintro ⟨h1 | h1, h2⟩
          · exact Or.inl h1
          · rcases h2 with h2 | h2
            · exact Or.inl h2
            · exact Or.inr ⟨h1, h2⟩
    · have hne : x ≠ y := by simpa using he
      by_cases hlt : x < y
      · obtain ⟨ihs, ihm⟩ := listInter_spec xs (y :: ys) hxt2
          (by rw [strictAsc_iff_pairwise, List.pairwise_cons]; exact ⟨hyh, hyt⟩)
        have e : listInter (x :: xs) (y :: ys) = listInter xs (y :: ys) := by
          simp only [listInter]
          rw [if_neg (by simpa using hne), if_pos hlt]
        rw [e]
        refine ⟨ihs, fun z => ?_⟩
        rw [ihm z]
        simp only [List.mem_cons]
        constructor
        · rintro ⟨h1, h2⟩
          exact ⟨Or.inr h1, h2⟩
        · rintro ⟨h1 | h1, h2⟩
          · subst h1
            rcases h2 with h2 | h2
            · exact absurd h2 hne
            · exact absurd (hyh z h2) (by omega)
          · exact ⟨h1, h2⟩
      · have hgt : y < x := by omega
        obtain ⟨ihs, ihm⟩ := listInter_spec (x :: xs) ys
          (by rw [strictAsc_iff_pairwise, List.pairwise_cons]; exact ⟨hxh, hxt⟩) hyt2
        have e : listInter (x :: xs) (y :: ys) = listInter (x :: xs) ys := by
          simp only [listInter]
          rw [if_neg (by simpa using hne), if_neg hlt]
        rw [e]
        refine ⟨ihs, fun z => ?_⟩
        rw [ihm z]
        simp only [List.mem_cons]
        constructor
        · rintro ⟨h1, h2⟩
          exact ⟨h1, Or.inr h2⟩
        · rintro ⟨h1, h2 | h2⟩
          · subst h2
            rcases h1 with h1 | h1
            · exact absurd h1.symm hne
            · exact absurd (hxh z h1) (by omega)
          · exact ⟨h1, h2⟩
termination_by xs ys => xs.length + ys.length

theorem inorderFrom_begin (h : Heap beta) (t : ATree)
    (hrep : reprAt h none t = true) (hnd : t.addrs.Nodup) :
    ∃ b, beginPtr h t.rootAddr = some b ∧
      inorderFrom h b (h.length + 1) = some t.items := by
  have hseq := inorderSeq_repr h t hrep hnd
  cases hb : beginPtr h t.rootAddr with
  | none =>
    rw [inorderSeq, hb] at hseq
    simp at hseq
  | some b =>
    refine ⟨b, rfl, ?_⟩
    rw [inorderSeq, hb] at hseq
    simpa using hseq

theorem rbIntersectLoop_spec (h : Heap RBColor) :
    ∀ fuel xs ys c acc,
      xs.length + ys.length + 1 ≤ fuel →
      inorderFrom h c (h.length + 1) = some xs →
      rbIntersectLoop h c ys acc fuel = rbInsertList acc (listInter xs ys) := by
  intro fuel
  induction fuel with
  | zero =>
    intro xs ys c acc hf
    omega
  | succ f ih =>
    intro xs ys c acc hf hcur
    cases c with
    | none =>
      have hxs : xs = [] := by
        simp only [inorderFrom] at hcur
        simpa using hcur.symm
      subst hxs
      simp only [rbIntersectLoop]
      rw [show listInter [] ys = [] from by simp [listInter]]
      rfl
    | some ca =>
      cases ys with
      | nil =>
        simp only [rbIntersectLoop]
        rw [show listInter xs [] = [] from by cases xs <;> simp [listInter]]
        rfl
      | cons y ys =>
        have hcur0 := hcur
        simp only [inorderFrom, bind] at hcur
        cases hgc : hget h ca with
        | none => rw [hgc] at hcur; simp at hcur
        | some n =>
          rw [hgc] at hcur
          simp only [Option.some_bind] at hcur
          cases hsucc : inorderSucc h ca (h.length + 1) with
          | none => rw [hsucc] at hcur; simp at hcur
          | some nxt =>
            rw [hsucc] at hcur
            simp only [Option.some_bind] at hcur
            cases hrest : inorderFrom h nxt h.length with
            | none => rw [hrest] at hcur; simp at hcur
            | some rest =>
              rw [hrest] at hcur
              have hxs : xs = n.item :: rest := by simpa using hcur.symm
              subst hxs
              have hrest1 : inorderFrom h nxt (h.length + 1) = some rest :=
                inorderFrom_mono h h.length (h.length + 1) nxt rest (by omega) hrest
              simp only [rbIntersectLoop, bind, hgc, Option.some_bind]
              by_cases he : (n.item == y) = true
              · rw [if_pos he]
                rw [show listInter (n.item :: rest) (y :: ys)
                    = n.item :: listInter rest ys from by
                  simp only [listInter]; rw [if_pos he]]
                simp only [rbInsertList]
                cases hins : rbInsert acc n.item with
                | none => simp
                | some acc2 =>
                  simp only [Option.some_bind, hsucc]
                  refine ih rest ys nxt acc2 ?_ hrest1
                  simp only [List.length_cons] at hf
                  omega
              · rw [if_neg he]
                by_cases hlt : n.item < y
                · rw [if_pos hlt]
                  rw [show listInter (n.item :: rest) (y :: ys)
                      = listInter rest (y :: ys) from by
                    simp only [listInter]; rw [if_neg he, if_pos hlt]]
                  simp only [hsucc, Option.some_bind]
                  refine ih rest (y :: ys) nxt acc ?_ hrest1
                  simp only [List.length_cons] at hf ⊢
                  omega
                · rw [if_neg hlt]
                  rw [show listInter (n.item :: rest) (y :: ys)
                      = listInter (n.item :: rest) ys from by
                    simp only [listInter]; rw [if_neg he, if_neg hlt]]
                  refine ih (n.item :: rest) ys (some ca) acc ?_ hcur0
                  simp only [List.length_cons] at hf ⊢
                  omega

theorem rbIntersect_spec (s : RBState) (t : ATree) (ys : List Int)
    (hrep : reprAt s.heap none t = true) (hnd : t.addrs.Nodup)
    (hroot : s.root = t.rootAddr) :
    rbIntersect s ys = rbInsertList rbEmpty (listInter t.items ys) := by
  obtain ⟨b, hb, hcur⟩ := inorderFrom_begin s.heap t hrep hnd
  have hlen : t.items.length ≤ s.heap.length := by
    rw [items_length]
    exact size_le_heap s.heap t none hrep hnd
  simp only [rbIntersect, hroot, hb, bind, Option.some_bind]
  exact rbIntersectLoop_spec s.heap (s.heap.length + ys.length + 1) t.items ys b rbEmpty
    (by omega) hcur

theorem avlIntersectLoop_spec (h : Heap Int) :
    ∀ fuel xs ys c acc,
      xs.length + ys.length + 1 ≤ fuel →
      inorderFrom h c (h.length + 1) = some xs →
      avlIntersectLoop h c ys acc fuel = avlInsertList acc (listInter xs ys) := by
  intro fuel
  induction fuel with
  | zero =>
    intro xs ys c acc hf
    omega
  | succ f ih =>
    intro xs ys c acc hf hcur
    cases c with
    | none =>
      have hxs : xs = [] := by
        simp only [inorderFrom] at hcur
        simpa using hcur.symm
      subst hxs
      simp only [avlIntersectLoop]
      rw [show listInter [] ys = [] from by simp [listInter]]
      rfl
    | some ca =>
      cases ys with
      | nil =>
        simp only [avlIntersectLoop]
        rw [show listInter xs [] = [] from by cases xs <;> simp [listInter]]
        rfl
      | cons y ys =>
        have hcur0 := hcur
        simp only [inorderFrom, bind] at hcur
        cases hgc : hget h ca with
        | none => rw [hgc] at hcur; simp at hcur
        | some n =>
          rw [hgc] at hcur
          simp only [Option.some_bind] at hcur
          cases hsucc : inorderSucc h ca (h.length + 1) with
          | none => rw [hsucc] at hcur; simp at hcur
          | some nxt =>
            rw [hsucc] at hcur
            simp only [Option.some_bind] at hcur
            cases hrest : inorderFrom h nxt h.length with
            | none => rw [hrest] at hcur; simp at hcur
            | some rest =>
              rw [hrest] at hcur
              have hxs : xs = n.item :: rest := by simpa using hcur.symm
              subst hxs
              have hrest1 : inorderFrom h nxt (h.length + 1) = some rest :=
                inorderFrom_mono h h.length (h.length + 1) nxt rest (by omega) hrest
              simp only [avlIntersectLoop, bind, hgc, Option.some_bind]
              by_cases he : (n.item == y) = true
              · rw [if_pos he]
                rw [show listInter (n.item :: rest) (y :: ys)
                    = n.item :: listInter rest ys from by
                  simp only [listInter]; rw [if_pos he]]
                simp only [avlInsertList]
                cases hins : avlInsert acc n.item with
                | none => simp
                | some acc2 =>
                  simp only [Option.some_bind, hsucc]
                  refine ih rest ys nxt acc2 ?_ hrest1
                  simp only [List.length_cons] at hf
                  omega
              · rw [if_neg he]
                by_cases hlt : n.item < y
                · rw [if_pos hlt]
                  rw [show listInter (n.item :: rest) (y :: ys)
                      = listInter rest (y :: ys) from by
                    simp only [listInter]; rw [if_neg he, if_pos hlt]]
                  simp only [hsucc, Option.some_bind]
                  refine ih rest (y :: ys) nxt acc ?_ hrest1
                  simp only [List.length_cons] at hf ⊢
                  omega
                · rw [if_neg hlt]
                  rw [show listInter (n.item :: rest) (y :: ys)
                      = listInter (n.item :: rest) ys from by
                    simp only [listInter]; rw [if_neg he, if_neg hlt]]
                  refine ih (n.item :: rest) ys (some ca) acc ?_ hcur0
                  simp only [List.length_cons] at hf ⊢
                  omega

theorem avlIntersect_spec (s : AVLState) (t : ATree) (ys : List Int)
    (hrep : reprAt s.heap none t = true) (hnd : t.addrs.Nodup)
    (hroot : s.root = t.rootAddr) :
    avlIntersect s ys = avlInsertList avlEmpty (listInter t.items ys) := by
  obtain ⟨b, hb, hcur⟩ := inorderFrom_begin s.heap t hrep hnd
  have hlen : t.items.length ≤ s.heap.length := by
    rw [items_length]
    exact size_le_heap s.heap t none hrep hnd
  simp only [avlIntersect, hroot, hb, bind, Option.some_bind]
  exact avlIntersectLoop_spec s.heap (s.heap.length + ys.length + 1) t.items ys b avlEmpty
    (by omega) hcur

end BTL
